import Mathlib

/-!
# Cancellable fan-out / fan-in pipeline (`main.go`)

A shallow embedding of the three pieces of `main.go`:

* `Generator` (lines 16-34) and `Worker` (lines 38-59) are embedded as small
  transition functions over the events the function body performs on its
  channels (send, receive, close) and on its callback.
* `main` (lines 61-141) is embedded as a transition function `step` over a
  global `State`: one action per channel operation, atomic add, WaitGroup
  operation, sleep or `go` statement, taken by one goroutine at a time.  An
  execution is a list of actions; every interleaving of the goroutines is a
  list of actions.  `step` moves the generator and the workers with
  `Generator.step` and `Worker.step`.

Conventions of the embedding:

* `int64` arithmetic wraps (`wrap64`), as Go defines it.
* The number of workers is the parameter `N` of `step`; the source fixes it
  to `NumOut`.
* Unbuffered channels (`chIn`, `outs[i]`) are rendezvous: the send and the
  matching receive are one action.  The buffered channel `chOut` is a FIFO
  list bounded by its capacity `N`.
* A select with several ready branches may take any of them.
* The cancellation of `ctx` (deadline or `cancel()`) is an action of its own,
  enabled at any moment while the context is not yet cancelled.
* Statements on variables local to one goroutine are part of the preceding
  action of that goroutine: `n++` of the return of the callback, `sum += n`
  and `count++` of the receive from `chOut`.
* Closing a closed channel, sending on a closed channel and `wg.Done()` on a
  zero counter set the `panicked` flag; a panicked program takes no step.
-/

namespace Pipeline

set_option maxRecDepth 100000

/-- Two's-complement reduction of an integer to the `int64` range. -/
def wrap64 (x : Int) : Int :=
  (x + 9223372036854775808) % 18446744073709551616 - 9223372036854775808

/-- The constant `NumOut` of line 79: the number of workers and of channels. -/
def NumOut : Nat := 20

/-! ## Generator (lines 16-34) -/

/-- Control points of `Generator`: not yet started by `go`; at the select of
line 24; after the send, before `fn(n)` of line 30 has returned; after
`break loop1`, before the deferred `close(ch)`; returned. -/
inductive GenPc
  | notStarted
  | select
  | callFn
  | closing
  | done
  deriving DecidableEq

/-- Local state of `Generator`: control point and the variable `n`. -/
structure GenState where
  pc : GenPc
  n : Int
  deriving DecidableEq

/-- What the body of `Generator` does to its surroundings. -/
inductive GenEv
  | send (v : Int)
  | ctxDone
  | call (v : Int)
  | close
  deriving DecidableEq

/-- State on entry to the loop: `defer close(ch)` registered, `n = 1`. -/
def Generator.entry : GenState := { pc := .select, n := 1 }

/-- State of a generator whose `go` statement has not run yet. -/
def Generator.idle : GenState := { pc := .notStarted, n := 0 }

/-- One event of `Generator`.
* `send v`: the `case ch <- n` branch of the select is taken (`v` is `n`);
* `ctxDone`: the `case <-ctx.Done()` branch is taken, `break loop1`;
* `call v`: `fn(n)` is called and returns, then `n++`;
* `close`: the deferred `close(ch)` runs and the function returns. -/
def Generator.step (g : GenState) : GenEv → Option GenState
  | .send v => if g.pc = .select ∧ v = g.n then some { g with pc := .callFn } else none
  | .ctxDone => if g.pc = .select then some { g with pc := .closing } else none
  | .call v =>
    if g.pc = .callFn ∧ v = g.n then some { pc := .select, n := wrap64 (g.n + 1) } else none
  | .close => if g.pc = .closing then some { g with pc := .done } else none

/-- Run `Generator` along a list of events. -/
def Generator.run (g : GenState) : List GenEv → Option GenState
  | [] => some g
  | e :: es => (Generator.step g e).bind (fun g' => Generator.run g' es)

/-- The values a list of generator events sends on `ch`, in order. -/
def GenEv.sends : List GenEv → List Int
  | [] => []
  | .send v :: es => v :: GenEv.sends es
  | _ :: es => GenEv.sends es

/-- The arguments with which a list of generator events calls `fn`, in order. -/
def GenEv.calls : List GenEv → List Int
  | [] => []
  | .call v :: es => v :: GenEv.calls es
  | _ :: es => GenEv.calls es

/-- The number of `close(ch)` events in a list of generator events. -/
def GenEv.closes : List GenEv → Nat
  | [] => 0
  | .close :: es => GenEv.closes es + 1
  | _ :: es => GenEv.closes es

/-- The `i`-th value (counting from 0) the generator produces: `n` starts at
`1` (line 19) and `n++` (line 31) runs after each send. -/
def genValue : Nat → Int
  | 0 => 1
  | i + 1 => wrap64 (genValue i + 1)

/-- The first `k` values of the generator. -/
def genSeq (k : Nat) : List Int := (List.range k).map genValue

/-- The sequence `1, 2, ..., k`. -/
def countUp (k : Nat) : List Int := (List.range k).map (fun (i : Nat) => (i : Int) + 1)

/-- The events of a run of `Generator` to its end that starts with `j` values
already produced and sends `k` more: `k` rounds of send and call, then the
cancellation branch and the deferred close. -/
def genLoop (j : Nat) : Nat → List GenEv
  | 0 => [GenEv.ctxDone, GenEv.close]
  | k + 1 => GenEv.send (genValue j) :: GenEv.call (genValue j) :: genLoop (j + 1) k

/-- The events of a complete run of `Generator` with `k` sends. -/
def genTrace (k : Nat) : List GenEv := genLoop 0 k

/-! ## Worker (lines 38-59) -/

/-- Control points of `Worker`: not yet started by `go`; at the receive of
line 44; at the send of line 53, holding the received value `v`; in the sleep
of line 57; at `close(out)` of line 47; returned. -/
inductive WorkerPc
  | notStarted
  | recv
  | send (v : Int)
  | sleep
  | closeOut
  | done
  deriving DecidableEq

/-- What the body of `Worker` does to its channels.  `closeIn` is listed so
that its absence from every run can be stated. -/
inductive WorkerEv
  | recvIn (v : Int)
  | inClosed
  | sendOut (v : Int)
  | slept
  | closeOut
  | closeIn
  deriving DecidableEq

/-- State on entry to `Worker`. -/
def Worker.entry : WorkerPc := .recv

/-- One event of `Worker`.
* `recvIn v`: `v, ok := <-in` with `ok = true`;
* `inClosed`: `v, ok := <-in` with `ok = false`;
* `sendOut v`: `out <- v`;
* `slept`: `time.Sleep(workerCycleDelay)` returns;
* `closeOut`: `close(out)`, `break loop2`. -/
def Worker.step (w : WorkerPc) : WorkerEv → Option WorkerPc
  | .recvIn v => if w = .recv then some (.send v) else none
  | .inClosed => if w = .recv then some .closeOut else none
  | .sendOut v => if w = .send v then some .sleep else none
  | .slept => if w = .sleep then some .recv else none
  | .closeOut => if w = .closeOut then some .done else none
  | .closeIn => none

/-- Run `Worker` along a list of events. -/
def Worker.run (w : WorkerPc) : List WorkerEv → Option WorkerPc
  | [] => some w
  | e :: es => (Worker.step w e).bind (fun w' => Worker.run w' es)

/-- The values a list of worker events receives from `in`, in order. -/
def WorkerEv.received : List WorkerEv → List Int
  | [] => []
  | .recvIn v :: es => v :: WorkerEv.received es
  | _ :: es => WorkerEv.received es

/-- The values a list of worker events sends on `out`, in order. -/
def WorkerEv.sent : List WorkerEv → List Int
  | [] => []
  | .sendOut v :: es => v :: WorkerEv.sent es
  | _ :: es => WorkerEv.sent es

/-- The events of a complete run of `Worker` that receives `xs`: for each
value a receive, a send and a sleep, then the closed receive and the close. -/
def workerTrace : List Int → List WorkerEv
  | [] => [WorkerEv.inClosed, WorkerEv.closeOut]
  | v :: xs => WorkerEv.recvIn v :: WorkerEv.sendOut v :: WorkerEv.slept :: workerTrace xs

/-! ## The pipeline assembled by `main` (lines 61-141) -/

/-- Control points of the drain goroutine of lines 99-105: not yet started;
at the receive of the range loop; at `chOut <- n`, holding `n`; at
`amounts[i]++`; at the deferred `wg.Done()`; returned. -/
inductive DrainPc
  | notStarted
  | recv
  | sendOut (v : Int)
  | incAmount
  | wgDone
  | done
  deriving DecidableEq

/-- Control points of the closer goroutine of lines 108-113: not yet started;
in `wg.Wait()`; at `close(chOut)`; returned. -/
inductive CloserPc
  | notStarted
  | wait
  | close
  | done
  deriving DecidableEq

/-- Control points of `main`: the `go` statements in program order, then the
receive loop over `chOut`, then the code after the loop. -/
inductive MainPc
  | goGen
  | goWorker (i : Nat)
  | wgAdd (i : Nat)
  | goDrain (i : Nat)
  | goCloser
  | recv
  | ended
  deriving DecidableEq

/-- Global state of the program.
* `cancelled`: `ctx.Done()` is closed; `panicked`: a run-time panic happened;
* `main`, `gen`, `worker i`, `drain i`, `closer`: where each goroutine is;
  `fnMid`: the callback is between its two atomic adds;
* `chInClosed`, `outClosed i`, `chOutClosed`: the channel is closed;
  `chOut`: the buffer of `chOut`; `wg`: the WaitGroup counter;
* `amounts`, `inputSum`, `inputCount`, `sum`, `count`: the variables of `main`.

The remaining fields are histories, written and never read by `step`:
`sentIn` the values sent on `chIn`, `fnArgs` the arguments of the calls of
the callback, `got i` the values worker `i` received, `fwd i` the values it
sent on `outs[i]`, `relayed i` the values drain `i` sent on `chOut`, `recvd`
the values `main` received, each in order. -/
structure State where
  cancelled : Bool
  panicked : Bool
  main : MainPc
  gen : GenState
  fnMid : Bool
  chInClosed : Bool
  worker : Nat → WorkerPc
  outClosed : Nat → Bool
  drain : Nat → DrainPc
  wg : Nat
  closer : CloserPc
  chOut : List Int
  chOutClosed : Bool
  amounts : Nat → Int
  inputSum : Int
  inputCount : Int
  sum : Int
  count : Int
  sentIn : List Int
  fnArgs : List Int
  got : Nat → List Int
  fwd : Nat → List Int
  relayed : Nat → List Int
  recvd : List Int

/-- State at the first `go` statement of `main` (line 73). -/
def init : State where
  cancelled := false
  panicked := false
  main := .goGen
  gen := Generator.idle
  fnMid := false
  chInClosed := false
  worker := fun _ => .notStarted
  outClosed := fun _ => false
  drain := fun _ => .notStarted
  wg := 0
  closer := .notStarted
  chOut := []
  chOutClosed := false
  amounts := fun _ => 0
  inputSum := 0
  inputCount := 0
  sum := 0
  count := 0
  sentIn := []
  fnArgs := []
  got := fun _ => []
  fwd := fun _ => []
  relayed := fun _ => []
  recvd := []

/-- Head of the loop of lines 97-106 with loop variable `i`. -/
def nextDrain (N i : Nat) : MainPc := if i < N then .wgAdd i else .goCloser

/-- Head of the loop of lines 83-87 with loop variable `i`. -/
def nextWorker (N i : Nat) : MainPc := if i < N then .goWorker i else nextDrain N 0

/-- The steps of the program, one per goroutine action; an action carries
the loop index or the value it concerns. -/
inductive Action
  | cancel
  | goGen
  | goWorker (i : Nat)
  | wgAdd (i : Nat)
  | goDrain (i : Nat)
  | goCloser
  | genSend (i : Nat) (v : Int)
  | genCtxDone
  | fnAddSum
  | fnAddCount
  | genClose
  | workerInClosed (i : Nat)
  | workerSend (i : Nat) (v : Int)
  | workerSlept (i : Nat)
  | workerClose (i : Nat)
  | drainInClosed (i : Nat)
  | drainSend (i : Nat) (v : Int)
  | drainInc (i : Nat)
  | drainWgDone (i : Nat)
  | closerWait
  | closerClose
  | mainRecv (v : Int)
  | mainEnd
  deriving DecidableEq

/-- The state after a run-time panic. -/
def State.crash (s : State) : State := { s with panicked := true }

/-- One step of the program with `N` workers (`N` is `NumOut`); `none` when
the action is not enabled.
* `cancel`: the deadline of `ctx` fires (or `cancel()` is called);
* `goGen`: `go Generator(...)` (line 73);
* `goWorker i`: `outs[i] = make(...); go Worker(chIn, outs[i])` (lines 85-86);
* `wgAdd i`: `wg.Add(1)` (line 98); `goDrain i`: the `go` of line 99;
* `goCloser`: the `go` of line 108;
* `genSend i v`: `chIn` rendezvous, `Generator` sends `v`, worker `i` receives;
* `genCtxDone`: `Generator` takes the `ctx.Done()` branch;
* `fnAddSum`, `fnAddCount`: the two atomic adds of the callback (lines 75-76);
* `genClose`: the deferred `close(chIn)`;
* `workerInClosed i`: worker `i` receives from the closed `chIn`;
* `workerSend i v`: `outs[i]` rendezvous, worker `i` sends, drain `i` receives;
* `workerSlept i`, `workerClose i`: the sleep and `close(outs[i])`;
* `drainInClosed i`: the range loop of drain `i` sees `outs[i]` closed;
* `drainSend i v`: `chOut <- n` (line 102), blocked while the buffer is full;
* `drainInc i`: `amounts[i]++`; `drainWgDone i`: the deferred `wg.Done()`;
* `closerWait`: `wg.Wait()` returns; `closerClose`: `close(chOut)`;
* `mainRecv v`: one iteration of the loop of lines 119-122 receiving `v`;
* `mainEnd`: that loop ends, `chOut` being closed and empty. -/
def step (N : Nat) (s : State) (a : Action) : Option State :=
  if s.panicked then none else
  match a with
  | .cancel => if s.cancelled then none else some { s with cancelled := true }
  | .goGen =>
    if s.main = .goGen then some { s with main := nextWorker N 0, gen := Generator.entry }
    else none
  | .goWorker i =>
    if s.main = .goWorker i then
      some { s with main := nextWorker N (i + 1),
                    worker := Function.update s.worker i Worker.entry }
    else none
  | .wgAdd i =>
    if s.main = .wgAdd i then some { s with main := .goDrain i, wg := s.wg + 1 } else none
  | .goDrain i =>
    if s.main = .goDrain i then
      some { s with main := nextDrain N (i + 1), drain := Function.update s.drain i .recv }
    else none
  | .goCloser =>
    if s.main = .goCloser then some { s with main := .recv, closer := .wait } else none
  | .genSend i v =>
    (Generator.step s.gen (.send v)).bind fun g =>
    (Worker.step (s.worker i) (.recvIn v)).bind fun w =>
    if s.chInClosed then some s.crash
    else some { s with gen := g, worker := Function.update s.worker i w,
                       sentIn := s.sentIn ++ [v],
                       got := Function.update s.got i (s.got i ++ [v]) }
  | .genCtxDone =>
    if s.cancelled then (Generator.step s.gen .ctxDone).map (fun g => { s with gen := g })
    else none
  | .fnAddSum =>
    if s.gen.pc = .callFn ∧ s.fnMid = false then
      some { s with inputSum := wrap64 (s.inputSum + s.gen.n), fnMid := true,
                    fnArgs := s.fnArgs ++ [s.gen.n] }
    else none
  | .fnAddCount =>
    if s.fnMid then
      (Generator.step s.gen (.call s.gen.n)).map
        (fun g => { s with gen := g, inputCount := wrap64 (s.inputCount + 1), fnMid := false })
    else none
  | .genClose =>
    (Generator.step s.gen .close).bind fun g =>
    if s.chInClosed then some s.crash else some { s with gen := g, chInClosed := true }
  | .workerInClosed i =>
    if s.chInClosed then
      (Worker.step (s.worker i) .inClosed).map
        (fun w => { s with worker := Function.update s.worker i w })
    else none
  | .workerSend i v =>
    (Worker.step (s.worker i) (.sendOut v)).bind fun w =>
    if s.drain i = .recv then
      if s.outClosed i then some s.crash
      else some { s with worker := Function.update s.worker i w,
                         drain := Function.update s.drain i (.sendOut v),
                         fwd := Function.update s.fwd i (s.fwd i ++ [v]) }
    else none
  | .workerSlept i =>
    (Worker.step (s.worker i) .slept).map
      (fun w => { s with worker := Function.update s.worker i w })
  | .workerClose i =>
    (Worker.step (s.worker i) .closeOut).bind fun w =>
    if s.outClosed i then some s.crash
    else some { s with worker := Function.update s.worker i w,
                       outClosed := Function.update s.outClosed i true }
  | .drainInClosed i =>
    if s.drain i = .recv ∧ s.outClosed i = true then
      some { s with drain := Function.update s.drain i .wgDone }
    else none
  | .drainSend i v =>
    if s.drain i = .sendOut v then
      if s.chOutClosed then some s.crash
      else if s.chOut.length < N then
        some { s with chOut := s.chOut ++ [v],
                      drain := Function.update s.drain i .incAmount,
                      relayed := Function.update s.relayed i (s.relayed i ++ [v]) }
      else none
    else none
  | .drainInc i =>
    if s.drain i = .incAmount then
      some { s with amounts := Function.update s.amounts i (wrap64 (s.amounts i + 1)),
                    drain := Function.update s.drain i .recv }
    else none
  | .drainWgDone i =>
    if s.drain i = .wgDone then
      if s.wg = 0 then some s.crash
      else some { s with wg := s.wg - 1, drain := Function.update s.drain i .done }
    else none
  | .closerWait =>
    if s.closer = .wait ∧ s.wg = 0 then some { s with closer := .close } else none
  | .closerClose =>
    if s.closer = .close then
      if s.chOutClosed then some s.crash
      else some { s with closer := .done, chOutClosed := true }
    else none
  | .mainRecv v =>
    if s.main = .recv ∧ s.chOut.head? = some v then
      some { s with chOut := s.chOut.tail, sum := wrap64 (s.sum + v),
                    count := wrap64 (s.count + 1), recvd := s.recvd ++ [v] }
    else none
  | .mainEnd =>
    if s.main = .recv ∧ s.chOut = [] ∧ s.chOutClosed = true then some { s with main := .ended }
    else none

/-- Run the program along a list of actions; `none` when one is not enabled. -/
def run (N : Nat) (s : State) : List Action → Option State
  | [] => some s
  | a :: as => (step N s a).bind (fun s' => run N s' as)

/-- The state after the actions `as` from `init`; `init` itself when some
action of the list is not enabled. -/
def exec (N : Nat) (as : List Action) : State := (run N init as).getD init

/-- The states the program with `N` workers can be in. -/
inductive Reachable (N : Nat) : State → Prop
  | init : Reachable N init
  | step {s s' : State} (a : Action) : Reachable N s → step N s a = some s' → Reachable N s'

/-- The loop of lines 135-137 applied to the first `k` entries of `amounts`:
`inputCount -= v` for each. -/
def subtractAmounts (amounts : Nat → Int) (inputCount : Int) : Nat → Int
  | 0 => inputCount
  | k + 1 => wrap64 (subtractAmounts amounts inputCount k - amounts k)

/-- The three checks of lines 129-140: `true` when no `log.Fatalf` is reached. -/
def checksPass (N : Nat) (s : State) : Bool :=
  decide (s.inputSum = s.sum) && decide (s.inputCount = s.count)
    && decide (subtractAmounts s.amounts s.inputCount N = 0)

/-- The transitions of `step` that do not panic, as a relation: each rule
names the guard of its action and the state it leads to. -/
inductive Next (N : Nat) (s : State) : Action → State → Prop
  | cancel (hc : s.cancelled = false) : Next N s .cancel { s with cancelled := true }
  | goGen (hm : s.main = .goGen) :
    Next N s .goGen { s with main := nextWorker N 0, gen := Generator.entry }
  | goWorker (i : Nat) (hm : s.main = .goWorker i) :
    Next N s (.goWorker i)
      { s with main := nextWorker N (i + 1), worker := Function.update s.worker i .recv }
  | wgAdd (i : Nat) (hm : s.main = .wgAdd i) :
    Next N s (.wgAdd i) { s with main := .goDrain i, wg := s.wg + 1 }
  | goDrain (i : Nat) (hm : s.main = .goDrain i) :
    Next N s (.goDrain i)
      { s with main := nextDrain N (i + 1), drain := Function.update s.drain i .recv }
  | goCloser (hm : s.main = .goCloser) :
    Next N s .goCloser { s with main := .recv, closer := .wait }
  | genSend (i : Nat) (v : Int) (hg : s.gen.pc = .select) (hv : v = s.gen.n)
      (hw : s.worker i = .recv) (hc : s.chInClosed = false) :
    Next N s (.genSend i v)
      { s with gen := { pc := .callFn, n := s.gen.n },
               worker := Function.update s.worker i (.send v),
               sentIn := s.sentIn ++ [v],
               got := Function.update s.got i (s.got i ++ [v]) }
  | genCtxDone (hc : s.cancelled = true) (hg : s.gen.pc = .select) :
    Next N s .genCtxDone { s with gen := { pc := .closing, n := s.gen.n } }
  | fnAddSum (hg : s.gen.pc = .callFn) (hf : s.fnMid = false) :
    Next N s .fnAddSum
      { s with inputSum := wrap64 (s.inputSum + s.gen.n), fnMid := true,
               fnArgs := s.fnArgs ++ [s.gen.n] }
  | fnAddCount (hf : s.fnMid = true) (hg : s.gen.pc = .callFn) :
    Next N s .fnAddCount
      { s with gen := { pc := .select, n := wrap64 (s.gen.n + 1) },
               inputCount := wrap64 (s.inputCount + 1), fnMid := false }
  | genClose (hg : s.gen.pc = .closing) (hc : s.chInClosed = false) :
    Next N s .genClose { s with gen := { pc := .done, n := s.gen.n }, chInClosed := true }
  | workerInClosed (i : Nat) (hc : s.chInClosed = true) (hw : s.worker i = .recv) :
    Next N s (.workerInClosed i) { s with worker := Function.update s.worker i .closeOut }
  | workerSend (i : Nat) (v : Int) (hw : s.worker i = .send v) (hd : s.drain i = .recv)
      (hc : s.outClosed i = false) :
    Next N s (.workerSend i v)
      { s with worker := Function.update s.worker i .sleep,
               drain := Function.update s.drain i (.sendOut v),
               fwd := Function.update s.fwd i (s.fwd i ++ [v]) }
  | workerSlept (i : Nat) (hw : s.worker i = .sleep) :
    Next N s (.workerSlept i) { s with worker := Function.update s.worker i .recv }
  | workerClose (i : Nat) (hw : s.worker i = .closeOut) (hc : s.outClosed i = false) :
    Next N s (.workerClose i)
      { s with worker := Function.update s.worker i .done,
               outClosed := Function.update s.outClosed i true }
  | drainInClosed (i : Nat) (hd : s.drain i = .recv) (hc : s.outClosed i = true) :
    Next N s (.drainInClosed i) { s with drain := Function.update s.drain i .wgDone }
  | drainSend (i : Nat) (v : Int) (hd : s.drain i = .sendOut v) (hc : s.chOutClosed = false)
      (hl : s.chOut.length < N) :
    Next N s (.drainSend i v)
      { s with chOut := s.chOut ++ [v],
               drain := Function.update s.drain i .incAmount,
               relayed := Function.update s.relayed i (s.relayed i ++ [v]) }
  | drainInc (i : Nat) (hd : s.drain i = .incAmount) :
    Next N s (.drainInc i)
      { s with amounts := Function.update s.amounts i (wrap64 (s.amounts i + 1)),
               drain := Function.update s.drain i .recv }
  | drainWgDone (i : Nat) (hd : s.drain i = .wgDone) (hw : s.wg ≠ 0) :
    Next N s (.drainWgDone i)
      { s with wg := s.wg - 1, drain := Function.update s.drain i .done }
  | closerWait (hc : s.closer = .wait) (hw : s.wg = 0) :
    Next N s .closerWait { s with closer := .close }
  | closerClose (hc : s.closer = .close) (ho : s.chOutClosed = false) :
    Next N s .closerClose { s with closer := .done, chOutClosed := true }
  | mainRecv (v : Int) (hm : s.main = .recv) (hh : s.chOut.head? = some v) :
    Next N s (.mainRecv v)
      { s with chOut := s.chOut.tail, sum := wrap64 (s.sum + v),
               count := wrap64 (s.count + 1), recvd := s.recvd ++ [v] }
  | mainEnd (hm : s.main = .recv) (he : s.chOut = []) (hc : s.chOutClosed = true) :
    Next N s .mainEnd { s with main := .ended }

/-! ## Invariant of the reachable states -/

/-- The value a worker holds between its receive and its send. -/
def wHold : WorkerPc → List Int
  | .send v => [v]
  | _ => []

/-- The value a drain goroutine holds between its receive and its send. -/
def dHold : DrainPc → List Int
  | .sendOut v => [v]
  | _ => []

/-- One when the drain goroutine has sent a value and not yet counted it. -/
def dPending : DrainPc → Int
  | .incAmount => 1
  | _ => 0

/-- The number of `go Worker` statements `main` has executed. -/
def spawnedWorkers (N : Nat) : MainPc → Nat
  | .goGen => 0
  | .goWorker i => i
  | _ => N

/-- The number of drain goroutines `main` has started. -/
def spawnedDrains (N : Nat) : MainPc → Nat
  | .goGen => 0
  | .goWorker _ => 0
  | .wgAdd i => i
  | .goDrain i => i
  | _ => N

/-- One when `main` has called `wg.Add(1)` for a drain goroutine it has not
started yet. -/
def wgAhead : MainPc → Nat
  | .goDrain _ => 1
  | _ => 0

/-- One when the drain goroutine is running and has not called `wg.Done()`. -/
def wgHeld : DrainPc → Nat
  | .notStarted => 0
  | .done => 0
  | _ => 1

/-- The invariant of the program with `N` workers. -/
structure Inv (N : Nat) (s : State) : Prop where
  noPanic : s.panicked = false
  mainBound : ∀ i, (s.main = .goWorker i ∨ s.main = .wgAdd i ∨ s.main = .goDrain i) → i < N
  genStarted : s.gen.pc = .notStarted ↔ s.main = .goGen
  workerStarted : ∀ i, s.worker i ≠ .notStarted ↔ i < spawnedWorkers N s.main
  drainStarted : ∀ i, s.drain i ≠ .notStarted ↔ i < spawnedDrains N s.main
  closerStarted : s.closer ≠ .notStarted ↔ (s.main = .recv ∨ s.main = .ended)
  genIdle : s.gen.pc = .notStarted → s.sentIn = []
  genSent : s.sentIn = genSeq s.sentIn.length
  genN : s.gen.pc = .select ∨ s.gen.pc = .closing ∨ s.gen.pc = .done →
    s.gen.n = genValue s.sentIn.length
  genCall : s.gen.pc = .callFn → ∃ k, s.sentIn = genSeq k ++ [s.gen.n] ∧ s.gen.n = genValue k
  fnPending : s.gen.pc = .callFn → s.fnMid = false → s.sentIn = s.fnArgs ++ [s.gen.n]
  fnSettled : s.gen.pc ≠ .callFn ∨ s.fnMid = true → s.fnArgs = s.sentIn
  fnMidPc : s.fnMid = true → s.gen.pc = .callFn
  inSum : s.inputSum = wrap64 s.fnArgs.sum
  inCount : s.inputCount = wrap64 ((s.fnArgs.length : Int) - (if s.fnMid then 1 else 0))
  inClosed : s.chInClosed = true ↔ s.gen.pc = .done
  genCancelled : s.gen.pc = .closing ∨ s.gen.pc = .done → s.cancelled = true
  gotFwd : ∀ i, s.got i = s.fwd i ++ wHold (s.worker i)
  fwdRelayed : ∀ i, s.fwd i = s.relayed i ++ dHold (s.drain i)
  sentGot : (↑s.sentIn : Multiset Int) = ∑ i in Finset.range N, (↑(s.got i) : Multiset Int)
  relayedRecvd :
    ∑ i in Finset.range N, (↑(s.relayed i) : Multiset Int) = (↑s.recvd : Multiset Int) + ↑s.chOut
  gotSublist : ∀ i, List.Sublist (s.got i) s.sentIn
  amountsEq : ∀ i, s.amounts i = wrap64 (((s.relayed i).length : Int) - dPending (s.drain i))
  sumEq : s.sum = wrap64 s.recvd.sum
  countEq : s.count = wrap64 (s.recvd.length : Int)
  outClosedIff : ∀ i, s.outClosed i = true ↔ s.worker i = .done
  workerClosing : ∀ i, s.worker i = .closeOut ∨ s.worker i = .done → s.chInClosed = true
  drainClosing : ∀ i, s.drain i = .wgDone ∨ s.drain i = .done → s.outClosed i = true
  wgEq : s.wg = wgAhead s.main + ∑ i in Finset.range N, wgHeld (s.drain i)
  closerDone : s.closer = .close ∨ s.closer = .done → ∀ i, i < N → s.drain i = .done
  outClosedIffCloser : s.chOutClosed = true ↔ s.closer = .done
  endedClosed : s.main = .ended → s.chOutClosed = true ∧ s.chOut = []
  chOutCap : s.chOut.length ≤ N

/-- What the invariant gives once the receive loop of `main` has ended. -/
structure Settled (N : Nat) (s : State) : Prop where
  chOutClosed : s.chOutClosed = true
  chOutEmpty : s.chOut = []
  closerDone : s.closer = .done
  drainDone : ∀ i, i < N → s.drain i = .done
  workerDone : ∀ i, i < N → s.worker i = .done
  outsClosed : ∀ i, i < N → s.outClosed i = true
  gotEq : ∀ i, i < N → s.got i = s.fwd i
  fwdEq : ∀ i, i < N → s.fwd i = s.relayed i
  recvdEq : (↑s.recvd : Multiset Int) = ↑s.sentIn
  fnIdle : s.fnMid = false
  fnArgsEq : s.fnArgs = s.sentIn

/-! ## Termination measure of the shutdown cascade -/

/-- Steps `main` still has to take. -/
def mainWeight (N : Nat) : MainPc → Nat
  | .goGen => 3 * N + 4
  | .goWorker i => (N - i) + 2 * N + 3
  | .wgAdd i => 2 * (N - i) + 3
  | .goDrain i => 2 * (N - i) + 2
  | .goCloser => 2
  | .recv => 1
  | .ended => 0

/-- Weight of a worker once `chIn` is closed. -/
def workerWeight : WorkerPc → Nat
  | .notStarted => 2
  | .recv => 2
  | .send _ => 7
  | .sleep => 3
  | .closeOut => 1
  | .done => 0

/-- Weight of a drain goroutine. -/
def drainWeight : DrainPc → Nat
  | .notStarted => 2
  | .recv => 2
  | .sendOut _ => 5
  | .incAmount => 3
  | .wgDone => 1
  | .done => 0

/-- Weight of the closer goroutine. -/
def closerWeight : CloserPc → Nat
  | .notStarted => 3
  | .wait => 2
  | .close => 1
  | .done => 0

/-- A bound on the number of steps left once `chIn` is closed. -/
def stepsLeft (N : Nat) (s : State) : Nat :=
  mainWeight N s.main + closerWeight s.closer + s.chOut.length
    + ∑ i in Finset.range N, workerWeight (s.worker i)
    + ∑ i in Finset.range N, drainWeight (s.drain i)

/-! ## Sample executions -/

/-- A complete run with two workers and three values, the goroutines
interleaved. -/
def demoRun : List Action :=
  [.goGen, .goWorker 0, .goWorker 1, .wgAdd 0, .goDrain 0, .wgAdd 1, .goDrain 1, .goCloser,
   .genSend 0 1, .fnAddSum, .fnAddCount, .genSend 1 2, .workerSend 0 1, .fnAddSum,
   .drainSend 0 1, .fnAddCount, .workerSend 1 2, .drainSend 1 2, .drainInc 1, .mainRecv 1,
   .mainRecv 2, .drainInc 0, .workerSlept 0, .genSend 0 3, .fnAddSum, .fnAddCount, .cancel,
   .genCtxDone, .genClose, .workerSend 0 3, .workerSlept 1, .workerInClosed 1, .workerClose 1,
   .drainInClosed 1, .drainWgDone 1, .drainSend 0 3, .drainInc 0, .workerSlept 0,
   .workerInClosed 0, .workerClose 0, .drainInClosed 0, .drainWgDone 0, .closerWait,
   .closerClose, .mainRecv 3, .mainEnd]

/-- The statements `go Worker(chIn, outs[i])` for `i = j, ..., j + m - 1`. -/
def goWorkers (j : Nat) : Nat → List Action
  | 0 => []
  | m + 1 => .goWorker j :: goWorkers (j + 1) m

/-- The statements `wg.Add(1)` and `go func(...)` of the drain goroutines for
`i = j, ..., j + m - 1`. -/
def goDrains (j : Nat) : Nat → List Action
  | 0 => []
  | m + 1 => .wgAdd j :: .goDrain j :: goDrains (j + 1) m

/-- The `go` statements of `main` with `N` workers, in program order. -/
def spawnAll (N : Nat) : List Action :=
  .goGen :: (goWorkers 0 N ++ (goDrains 0 N ++ [.goCloser]))

/-- The actions by which one value `v` travels from the generator through
worker `i` and drain `i` to `main`. -/
def relay (i : Nat) (v : Int) : List Action :=
  [.genSend i v, .fnAddSum, .fnAddCount, .workerSend i v, .drainSend i v, .drainInc i,
   .mainRecv v, .workerSlept i]

/-- The round trips through worker 0 of the generator's values number `j`,
`j + 1`, ..., `j + k - 1`. -/
def roundTrips (j : Nat) : Nat → List Action
  | 0 => []
  | k + 1 => relay 0 (genValue j) ++ roundTrips (j + 1) k

/-- Worker `i` and drain `i`, both idle, return once `chIn` is closed. -/
def retire (i : Nat) : List Action :=
  [.workerInClosed i, .workerClose i, .drainInClosed i, .drainWgDone i]

/-- The actions `retire i` for `i = j, ..., j + m - 1`. -/
def retireAll (j : Nat) : Nat → List Action
  | 0 => []
  | m + 1 => retire j ++ retireAll (j + 1) m

/-- Cancellation and the shutdown cascade with `N` idle workers. -/
def shutdownAll (N : Nat) : List Action :=
  [.cancel, .genCtxDone, .genClose] ++ (retireAll 0 N ++ [.closerWait, .closerClose, .mainEnd])

/-- A complete run with `NumOut` workers: four values travel through workers
7, 0, 19 and 7 again, then the context is cancelled. -/
def fullRun : List Action :=
  spawnAll NumOut ++ (relay 7 1 ++ relay 0 2 ++ relay 19 3 ++ relay 7 4) ++ shutdownAll NumOut

/-- The run `fullRun` up to the close of `chIn`. -/
def closingRun : List Action :=
  spawnAll NumOut ++ (relay 7 1 ++ relay 0 2 ++ relay 19 3 ++ relay 7 4)
    ++ [.cancel, .genCtxDone, .genClose]

/-- A run with `NumOut` workers in which the context is cancelled before
anything else happens and the generator still sends two values. -/
def cancelledRun : List Action :=
  .cancel :: (spawnAll NumOut ++
    [.genSend 0 1, .fnAddSum, .fnAddCount, .genSend 1 2, .fnAddSum, .fnAddCount,
     .genCtxDone, .genClose])

/-- A complete run with `N` workers in which `k` values travel through worker
0 before the context is cancelled. -/
def longRun (N k : Nat) : List Action := spawnAll N ++ (roundTrips 0 k ++ shutdownAll N)

/-- A run with `N` workers in which the context is cancelled before anything
else happens and `k` values travel through worker 0 before the generator
takes the cancellation branch. -/
def cancelledLong (N k : Nat) : List Action :=
  .cancel :: (spawnAll N ++ (roundTrips 0 k ++ [.genCtxDone, .genClose]))

/-- The state of `main` and of the goroutines it has started while it
executes its `go` statements: `jw` workers and `jd` drain goroutines are
running and idle, nothing has been sent. -/
structure Spawned (N jw jd : Nat) (s : State) : Prop where
  panicked : s.panicked = false
  gen : s.gen = Generator.entry
  fnMid : s.fnMid = false
  chInClosed : s.chInClosed = false
  workers : ∀ i, i < jw → s.worker i = .recv
  outs : ∀ i, s.outClosed i = false
  drains : ∀ i, i < jd → s.drain i = .recv
  wg : s.wg = jd
  closer : s.closer = .notStarted
  chOut : s.chOut = []
  chOutClosed : s.chOutClosed = false
  fwd : s.fwd 0 = []
  sentIn : s.sentIn = []

/-- The program with `N` workers is idle between two round trips, `k` values
having travelled through worker 0. -/
structure AtHead (N k : Nat) (s : State) : Prop where
  panicked : s.panicked = false
  main : s.main = .recv
  gen : s.gen = { pc := .select, n := genValue k }
  fnMid : s.fnMid = false
  chInClosed : s.chInClosed = false
  workers : ∀ i, i < N → s.worker i = .recv
  outs : ∀ i, i < N → s.outClosed i = false
  drains : ∀ i, i < N → s.drain i = .recv
  wg : s.wg = N
  closer : s.closer = .wait
  chOut : s.chOut = []
  chOutClosed : s.chOutClosed = false
  fwd : s.fwd 0 = genSeq k
  sentIn : s.sentIn = genSeq k

/-- The shutdown cascade has passed the workers and drain goroutines below
`j`; those from `j` on are idle; `k` values have travelled through worker 0. -/
structure Retiring (N j k : Nat) (s : State) : Prop where
  panicked : s.panicked = false
  main : s.main = .recv
  chInClosed : s.chInClosed = true
  workers : ∀ i, j ≤ i → i < N → s.worker i = .recv
  outs : ∀ i, j ≤ i → i < N → s.outClosed i = false
  drains : ∀ i, j ≤ i → i < N → s.drain i = .recv
  wg : s.wg + j = N
  closer : s.closer = .wait
  chOut : s.chOut = []
  chOutClosed : s.chOutClosed = false
  fwd : s.fwd 0 = genSeq k
  sentIn : s.sentIn = genSeq k

/-! ## Arithmetic of `wrap64` and the runs of `Generator` -/

theorem wrap64_add_left (x y : Int) : wrap64 (wrap64 x + y) = wrap64 (x + y) := by
  unfold wrap64; omega

theorem wrap64_of_small (x : Int) (h1 : -9223372036854775808 ≤ x) (h2 : x < 9223372036854775808) :
    wrap64 x = x := by
  unfold wrap64; omega

theorem genValue_succ (j : Nat) : wrap64 (genValue j + 1) = genValue (j + 1) := rfl

theorem genValue_eq (j : Nat) : genValue j = wrap64 ((j : Int) + 1) := by
  induction j with
  | zero => unfold genValue wrap64; omega
  | succ j ih =>
    rw [← genValue_succ, ih, wrap64_add_left]
    push_cast
    rfl

theorem gen_run_shape (evs : List GenEv) :
    (∀ j g, Generator.run { pc := .select, n := genValue j } evs = some g → g.pc = .done →
        evs = genLoop j (GenEv.sends evs).length) ∧
    (∀ j g, Generator.run { pc := .callFn, n := genValue j } evs = some g → g.pc = .done →
        ∃ rest, evs = GenEv.call (genValue j) :: rest ∧
          rest = genLoop (j + 1) (GenEv.sends rest).length) ∧
    (∀ n g, Generator.run { pc := .closing, n := n } evs = some g → g.pc = .done →
        evs = [GenEv.close]) ∧
    (∀ n g, Generator.run { pc := .done, n := n } evs = some g → evs = []) := by
  induction evs with
  | nil =>
    refine ⟨?_, ?_, ?_, ?_⟩
    · intro j g h hd
      simp [Generator.run] at h
      subst h
      simp at hd
    · intro j g h hd
      simp [Generator.run] at h
      subst h
      simp at hd
    · intro n g h hd
      simp [Generator.run] at h
      subst h
      simp at hd
    · intro n g _
      rfl
  | cons e es ih =>
    obtain ⟨ihS, ihC, ihCl, ihD⟩ := ih
    refine ⟨?_, ?_, ?_, ?_⟩
    · intro j g h hd
      cases e with
      | send v =>
        simp only [Generator.run, Generator.step] at h
        by_cases hv : v = genValue j
        · subst hv
          simp at h
          obtain ⟨rest, h1, h2⟩ := ihC j g h hd
          subst h1
          simp only [GenEv.sends, List.length_cons, genLoop]
          rw [← h2]
        · simp [hv] at h
      | ctxDone =>
        simp only [Generator.run, Generator.step] at h
        simp at h
        have := ihCl _ g h hd
        subst this
        simp [GenEv.sends, genLoop]
      | call v => simp [Generator.run, Generator.step] at h
      | close => simp [Generator.run, Generator.step] at h
    · intro j g h hd
      cases e with
      | send v => simp [Generator.run, Generator.step] at h
      | ctxDone => simp [Generator.run, Generator.step] at h
      | call v =>
        simp only [Generator.run, Generator.step] at h
        by_cases hv : v = genValue j
        · subst hv
          simp at h
          rw [genValue_succ] at h
          exact ⟨es, rfl, ihS (j + 1) g h hd⟩
        · simp [hv] at h
      | close => simp [Generator.run, Generator.step] at h
    · intro n g h hd
      cases e with
      | send v => simp [Generator.run, Generator.step] at h
      | ctxDone => simp [Generator.run, Generator.step] at h
      | call v => simp [Generator.run, Generator.step] at h
      | close =>
        simp only [Generator.run, Generator.step] at h
        simp at h
        have := ihD _ g h
        subst this
        rfl
    · intro n g h
      cases e <;> simp [Generator.run, Generator.step] at h

theorem genLoop_run (k : Nat) : ∀ j,
    Generator.run { pc := .select, n := genValue j } (genLoop j k)
      = some { pc := .done, n := genValue (j + k) } := by
  induction k with
  | zero => intro j; simp [genLoop, Generator.run, Generator.step]
  | succ k ih =>
    intro j
    simp only [genLoop, Generator.run, Generator.step]
    simp
    rw [genValue_succ, ih (j + 1)]
    congr 3
    omega

theorem genLoop_sends (k : Nat) : ∀ j,
    GenEv.sends (genLoop j k) = (List.range' j k).map genValue := by
  induction k with
  | zero => intro j; simp [genLoop, GenEv.sends]
  | succ k ih => intro j; simp [genLoop, GenEv.sends, ih, List.range'_succ]

theorem genLoop_calls (k : Nat) : ∀ j,
    GenEv.calls (genLoop j k) = (List.range' j k).map genValue := by
  induction k with
  | zero => intro j; simp [genLoop, GenEv.calls]
  | succ k ih => intro j; simp [genLoop, GenEv.calls, ih, List.range'_succ]

theorem genLoop_closes (k : Nat) : ∀ j, GenEv.closes (genLoop j k) = 1 := by
  induction k with
  | zero => intro j; simp [genLoop, GenEv.closes]
  | succ k ih => intro j; simp [genLoop, GenEv.closes, ih]

theorem genSeq_eq_range' (k : Nat) : genSeq k = (List.range' 0 k).map genValue := by
  simp [genSeq, List.range_eq_range']

theorem genSeq_length (k : Nat) : (genSeq k).length = k := by simp [genSeq]

theorem genValue_small (i : Nat) (h : i + 1 < 9223372036854775808) : genValue i = (i : Int) + 1 := by
  rw [genValue_eq]
  apply wrap64_of_small <;> omega

theorem genSeq_small (k : Nat) (h : k < 9223372036854775808) : genSeq k = countUp k := by
  unfold genSeq countUp
  apply List.map_congr_left
  intro i hi
  rw [List.mem_range] at hi
  exact genValue_small i (by omega)

theorem step_not_panicked {N : Nat} {s s' : State} {a : Action} (h : step N s a = some s') :
    s.panicked = false := by
  unfold step at h
  split at h
  · simp at h
  · simp_all

theorem spawnedDrains_le {N : Nat} {s : State} (hi : Inv N s) : spawnedDrains N s.main ≤ N := by
  have hb := hi.mainBound
  cases hm : s.main <;> simp [spawnedDrains] <;> rw [hm] at hb
  · exact Nat.le_of_lt (hb _ (Or.inr (Or.inl rfl)))
  · exact Nat.le_of_lt (hb _ (Or.inr (Or.inr rfl)))

theorem spawnedWorkers_le {N : Nat} {s : State} (hi : Inv N s) : spawnedWorkers N s.main ≤ N := by
  have hb := hi.mainBound
  cases hm : s.main <;> simp [spawnedWorkers]
  rw [hm] at hb
  exact Nat.le_of_lt (hb _ (Or.inl rfl))

theorem drain_started_lt {N : Nat} {s : State} (hi : Inv N s) (i : Nat)
    (h : s.drain i ≠ .notStarted) : i < N :=
  Nat.lt_of_lt_of_le ((hi.drainStarted i).1 h) (spawnedDrains_le hi)

theorem worker_started_lt {N : Nat} {s : State} (hi : Inv N s) (i : Nat)
    (h : s.worker i ≠ .notStarted) : i < N :=
  Nat.lt_of_lt_of_le ((hi.workerStarted i).1 h) (spawnedWorkers_le hi)

theorem step_next {N : Nat} {s s' : State} {a : Action} (hi : Inv N s)
    (h : step N s a = some s') : Next N s a s' := by
  have hp := step_not_panicked h
  unfold step at h
  rw [if_neg (by simp [hp])] at h
  cases a <;> simp only [] at h
  all_goals simp [Generator.step, Worker.step, Option.bind_eq_some, State.crash, and_assoc, Worker.entry] at h
  case cancel => obtain ⟨h1, rfl⟩ := h; exact Next.cancel h1
  case goGen => obtain ⟨h1, rfl⟩ := h; exact Next.goGen h1
  case goWorker i => obtain ⟨h1, rfl⟩ := h; exact Next.goWorker i h1
  case wgAdd i => obtain ⟨h1, rfl⟩ := h; exact Next.wgAdd i h1
  case goDrain i => obtain ⟨h1, rfl⟩ := h; exact Next.goDrain i h1
  case goCloser => obtain ⟨h1, rfl⟩ := h; exact Next.goCloser h1
  case genSend i v =>
    obtain ⟨h1, h2, h3, h4⟩ := h
    have hc : s.chInClosed = false := by
      cases hcc : s.chInClosed
      · rfl
      · have := hi.inClosed.1 hcc
        rw [h1] at this
        cases this
    rw [if_neg (by simp [hc])] at h4
    simp only [Option.some.injEq] at h4
    subst h4
    exact Next.genSend i v h1 h2 h3 hc
  case genCtxDone => obtain ⟨h1, h2, rfl⟩ := h; exact Next.genCtxDone h1 h2
  case fnAddSum => obtain ⟨h1, h2, rfl⟩ := h; exact Next.fnAddSum h1 h2
  case fnAddCount => obtain ⟨h1, h2, rfl⟩ := h; exact Next.fnAddCount h1 h2
  case genClose =>
    obtain ⟨h1, h4⟩ := h
    have hc : s.chInClosed = false := by
      cases hcc : s.chInClosed
      · rfl
      · have := hi.inClosed.1 hcc
        rw [h1] at this
        cases this
    rw [if_neg (by simp [hc])] at h4
    simp only [Option.some.injEq] at h4
    subst h4
    exact Next.genClose h1 hc
  case workerInClosed i => obtain ⟨h1, h2, rfl⟩ := h; exact Next.workerInClosed i h1 h2
  case workerSend i v =>
    obtain ⟨h1, h2, h4⟩ := h
    have hc : s.outClosed i = false := by
      cases hcc : s.outClosed i
      · rfl
      · have := (hi.outClosedIff i).1 hcc
        rw [h1] at this
        cases this
    rw [if_neg (by simp [hc])] at h4
    simp only [Option.some.injEq] at h4
    subst h4
    exact Next.workerSend i v h1 h2 hc
  case workerSlept i => obtain ⟨h1, rfl⟩ := h; exact Next.workerSlept i h1
  case workerClose i =>
    obtain ⟨h1, h4⟩ := h
    have hc : s.outClosed i = false := by
      cases hcc : s.outClosed i
      · rfl
      · have := (hi.outClosedIff i).1 hcc
        rw [h1] at this
        cases this
    rw [if_neg (by simp [hc])] at h4
    simp only [Option.some.injEq] at h4
    subst h4
    exact Next.workerClose i h1 hc
  case drainInClosed i => obtain ⟨h1, h2, rfl⟩ := h; exact Next.drainInClosed i h1 h2
  case drainSend i v =>
    obtain ⟨h1, h4⟩ := h
    have hN : i < N := drain_started_lt hi i (by rw [h1]; simp)
    have hc : s.chOutClosed = false := by
      cases hcc : s.chOutClosed
      · rfl
      · have := hi.closerDone (Or.inr (hi.outClosedIffCloser.1 hcc)) i hN
        rw [h1] at this
        cases this
    rw [if_neg (by simp [hc])] at h4
    by_cases h5 : s.chOut.length < N
    · rw [if_pos h5] at h4
      simp only [Option.some.injEq] at h4
      subst h4
      exact Next.drainSend i v h1 hc h5
    · rw [if_neg h5] at h4
      cases h4
  case drainInc i => obtain ⟨h1, rfl⟩ := h; exact Next.drainInc i h1
  case drainWgDone i =>
    obtain ⟨h1, h4⟩ := h
    have hN : i < N := drain_started_lt hi i (by rw [h1]; simp)
    have hw : s.wg ≠ 0 := by
      have h5 : wgHeld (s.drain i) ≤ ∑ j in Finset.range N, wgHeld (s.drain j) :=
        Finset.single_le_sum (f := fun j => wgHeld (s.drain j)) (fun _ _ => Nat.zero_le _)
          (Finset.mem_range.2 hN)
      rw [h1] at h5
      have h6 := hi.wgEq
      have h7 : wgHeld DrainPc.wgDone = 1 := rfl
      omega
    rw [if_neg hw] at h4
    simp only [Option.some.injEq] at h4
    subst h4
    exact Next.drainWgDone i h1 hw
  case closerWait => obtain ⟨h1, h2, rfl⟩ := h; exact Next.closerWait h1 h2
  case closerClose =>
    obtain ⟨h1, h4⟩ := h
    have hc : s.chOutClosed = false := by
      cases hcc : s.chOutClosed
      · rfl
      · have := hi.outClosedIffCloser.1 hcc
        rw [h1] at this
        cases this
    rw [if_neg (by simp [hc])] at h4
    simp only [Option.some.injEq] at h4
    subst h4
    exact Next.closerClose h1 hc
  case mainRecv v => obtain ⟨h1, h2, rfl⟩ := h; exact Next.mainRecv v h1 h2
  case mainEnd => obtain ⟨h1, h2, h3, rfl⟩ := h; exact Next.mainEnd h1 h2 h3

/-! ## Preservation of the invariant: control points -/

/-! ### Facts about the loop heads of `main` -/

theorem nextDrain_cases (N k : Nat) :
    (k < N ∧ nextDrain N k = .wgAdd k) ∨ (N ≤ k ∧ nextDrain N k = .goCloser) := by
  unfold nextDrain
  by_cases h : k < N
  · exact Or.inl ⟨h, by rw [if_pos h]⟩
  · exact Or.inr ⟨Nat.le_of_not_lt h, by rw [if_neg h]⟩

theorem nextWorker_cases (N k : Nat) :
    (k < N ∧ nextWorker N k = .goWorker k) ∨ (N ≤ k ∧ nextWorker N k = nextDrain N 0) := by
  unfold nextWorker
  by_cases h : k < N
  · exact Or.inl ⟨h, by rw [if_pos h]⟩
  · exact Or.inr ⟨Nat.le_of_not_lt h, by rw [if_neg h]⟩

theorem next_noPanic {N : Nat} {s s' : State} {a : Action} (hi : Inv N s) (hn : Next N s a s') :
    s'.panicked = false := by
  cases hn <;> exact hi.noPanic

theorem next_mainBound {N : Nat} {s s' : State} {a : Action} (hi : Inv N s)
    (hn : Next N s a s') :
    ∀ i, (s'.main = .goWorker i ∨ s'.main = .wgAdd i ∨ s'.main = .goDrain i) → i < N := by
  have hb := hi.mainBound
  cases hn <;> dsimp only <;> try exact hb
  case goGen hm =>
    intro i h
    rcases nextWorker_cases N 0 with ⟨h1, h2⟩ | ⟨_, h2⟩
    · rw [h2] at h; simp at h; omega
    · rw [h2] at h
      rcases nextDrain_cases N 0 with ⟨h3, h4⟩ | ⟨_, h4⟩ <;> rw [h4] at h <;> simp at h
      omega
  case goWorker j hm =>
    intro i h
    rcases nextWorker_cases N (j + 1) with ⟨h1, h2⟩ | ⟨_, h2⟩
    · rw [h2] at h; simp at h; omega
    · rw [h2] at h
      rcases nextDrain_cases N 0 with ⟨h3, h4⟩ | ⟨_, h4⟩ <;> rw [h4] at h <;> simp at h
      omega
  case wgAdd j hm =>
    intro i h
    simp at h
    subst h
    exact hb _ (Or.inr (Or.inl hm))
  case goDrain j hm =>
    intro i h
    rcases nextDrain_cases N (j + 1) with ⟨h3, h4⟩ | ⟨_, h4⟩ <;> rw [h4] at h <;> simp at h
    omega
  case goCloser hm => intro i h; simp at h
  case mainEnd hm he hc => intro i h; simp at h

theorem nextDrain_ne (N k : Nat) :
    nextDrain N k ≠ .goGen ∧ nextDrain N k ≠ .recv ∧ nextDrain N k ≠ .ended ∧
      wgAhead (nextDrain N k) = 0 ∧ spawnedWorkers N (nextDrain N k) = N ∧
      (k ≤ N → spawnedDrains N (nextDrain N k) = k) := by
  rcases nextDrain_cases N k with ⟨h3, h4⟩ | ⟨h3, h4⟩ <;> rw [h4] <;>
    simp [wgAhead, spawnedWorkers, spawnedDrains]
  omega

theorem nextWorker_ne (N k : Nat) :
    nextWorker N k ≠ .goGen ∧ nextWorker N k ≠ .recv ∧ nextWorker N k ≠ .ended ∧
      wgAhead (nextWorker N k) = 0 ∧ (k ≤ N → spawnedWorkers N (nextWorker N k) = k) ∧
      spawnedDrains N (nextWorker N k) = 0 := by
  rcases nextWorker_cases N k with ⟨h3, h4⟩ | ⟨h3, h4⟩ <;> rw [h4]
  · simp [wgAhead, spawnedWorkers, spawnedDrains]
  · obtain ⟨h5, h6, h7, h8, h9, h10⟩ := nextDrain_ne N 0
    refine ⟨h5, h6, h7, h8, ?_, h10 (Nat.zero_le _)⟩
    intro h
    rw [h9]
    omega

theorem next_genStarted {N : Nat} {s s' : State} {a : Action} (hi : Inv N s)
    (hn : Next N s a s') : s'.gen.pc = .notStarted ↔ s'.main = .goGen := by
  have hb := hi.genStarted
  cases hn <;> dsimp only <;> try exact hb
  case goGen hm => simp [Generator.entry, (nextWorker_ne N 0).1]
  case goWorker j hm => simpa [hm, (nextWorker_ne N (j + 1)).1] using hb
  case wgAdd j hm => simpa [hm] using hb
  case goDrain j hm => simpa [hm, (nextDrain_ne N (j + 1)).1] using hb
  case goCloser hm => simpa [hm] using hb
  case genSend i v hg hv hw hc => simpa [hg] using hb
  case genCtxDone hc hg => simpa [hg] using hb
  case fnAddCount hf hg => simpa [hg] using hb
  case genClose hg hc => simpa [hg] using hb
  case mainEnd hm he hc => simpa [hm] using hb

theorem next_workerStarted {N : Nat} {s s' : State} {a : Action} (hi : Inv N s)
    (hn : Next N s a s') : ∀ i, s'.worker i ≠ .notStarted ↔ i < spawnedWorkers N s'.main := by
  have hb := hi.workerStarted
  have hm' := hi.mainBound
  cases hn <;> dsimp only <;> try exact hb
  case goGen hm =>
    intro i
    rw [(nextWorker_ne N 0).2.2.2.2.1 (Nat.zero_le _)]
    simpa [hm, spawnedWorkers] using hb i
  case goWorker j hm =>
    intro i
    have hj := hm' j (Or.inl hm)
    rw [(nextWorker_ne N (j + 1)).2.2.2.2.1 hj]
    have := hb i
    rw [hm] at this
    simp only [spawnedWorkers] at this
    by_cases hij : i = j
    · subst hij; simp
    · rw [Function.update_noteq hij, this]; omega
  case wgAdd j hm => intro i; simpa [hm, spawnedWorkers] using hb i
  case goDrain j hm =>
    intro i
    rw [(nextDrain_ne N (j + 1)).2.2.2.2.1]
    simpa [hm, spawnedWorkers] using hb i
  case goCloser hm => intro i; simpa [hm, spawnedWorkers] using hb i
  case mainEnd hm he hc => intro i; simpa [hm, spawnedWorkers] using hb i
  all_goals
    intro j
    have := hb j
    simp only [Function.update_apply]
    split_ifs with hij
    · subst hij; simp_all
    · exact this

theorem next_drainStarted {N : Nat} {s s' : State} {a : Action} (hi : Inv N s)
    (hn : Next N s a s') : ∀ i, s'.drain i ≠ .notStarted ↔ i < spawnedDrains N s'.main := by
  have hb := hi.drainStarted
  have hm' := hi.mainBound
  cases hn <;> dsimp only <;> try exact hb
  case goGen hm =>
    intro i
    rw [(nextWorker_ne N 0).2.2.2.2.2]
    simpa [hm, spawnedDrains] using hb i
  case goWorker j hm =>
    intro i
    rw [(nextWorker_ne N (j + 1)).2.2.2.2.2]
    simpa [hm, spawnedDrains] using hb i
  case wgAdd j hm => intro i; simpa [hm, spawnedDrains] using hb i
  case goDrain j hm =>
    intro i
    have hj := hm' j (Or.inr (Or.inr hm))
    rw [(nextDrain_ne N (j + 1)).2.2.2.2.2 hj]
    have := hb i
    rw [hm] at this
    simp only [spawnedDrains] at this
    by_cases hij : i = j
    · subst hij; simp
    · rw [Function.update_noteq hij, this]; omega
  case goCloser hm => intro i; simpa [hm, spawnedDrains] using hb i
  case mainEnd hm he hc => intro i; simpa [hm, spawnedDrains] using hb i
  all_goals
    intro j
    have := hb j
    simp only [Function.update_apply]
    split_ifs with hij
    · subst hij; simp_all
    · exact this

theorem next_closerStarted {N : Nat} {s s' : State} {a : Action} (hi : Inv N s)
    (hn : Next N s a s') : s'.closer ≠ .notStarted ↔ (s'.main = .recv ∨ s'.main = .ended) := by
  have hb := hi.closerStarted
  cases hn <;> dsimp only <;> try exact hb
  case goGen hm =>
    simpa [hm, (nextWorker_ne N 0).2.1, (nextWorker_ne N 0).2.2.1] using hb
  case goWorker j hm =>
    simpa [hm, (nextWorker_ne N (j + 1)).2.1, (nextWorker_ne N (j + 1)).2.2.1] using hb
  case wgAdd j hm => simpa [hm] using hb
  case goDrain j hm =>
    simpa [hm, (nextDrain_ne N (j + 1)).2.1, (nextDrain_ne N (j + 1)).2.2.1] using hb
  case goCloser hm => simp
  case closerWait hc hw => simpa [hc] using hb
  case closerClose hc ho => simpa [hc] using hb
  case mainEnd hm he hc => simpa [hm] using hb

/-! ## Preservation of the invariant: generator and callback -/

theorem genSeq_succ (k : Nat) : genSeq (k + 1) = genSeq k ++ [genValue k] := by
  simp [genSeq, List.range_succ]

theorem next_genIdle {N : Nat} {s s' : State} {a : Action} (hi : Inv N s)
    (hn : Next N s a s') : s'.gen.pc = .notStarted → s'.sentIn = [] := by
  have hb := hi.genIdle
  cases hn <;> dsimp only <;> first | exact hb | simp [Generator.entry]

theorem next_genSent {N : Nat} {s s' : State} {a : Action} (hi : Inv N s)
    (hn : Next N s a s') : s'.sentIn = genSeq s'.sentIn.length := by
  have hb := hi.genSent
  cases hn <;> dsimp only <;> try exact hb
  case genSend i v hg hv hw hc =>
    rw [List.length_append, List.length_singleton, genSeq_succ, ← hb, hv, hi.genN (Or.inl hg)]

theorem next_genN {N : Nat} {s s' : State} {a : Action} (hi : Inv N s)
    (hn : Next N s a s') :
    s'.gen.pc = .select ∨ s'.gen.pc = .closing ∨ s'.gen.pc = .done →
      s'.gen.n = genValue s'.sentIn.length := by
  have hb := hi.genN
  cases hn <;> dsimp only <;> try exact hb
  case goGen hm =>
    intro _
    rw [hi.genIdle (hi.genStarted.2 hm)]
    rfl
  case genSend i v hg hv hw hc => simp
  case genCtxDone hc hg => intro _; exact hb (Or.inl hg)
  case fnAddCount hf hg =>
    intro _
    obtain ⟨k, h1, h2⟩ := hi.genCall hg
    rw [h1, h2]
    simp [genSeq, genValue]
  case genClose hg hc => intro _; exact hb (Or.inr (Or.inl hg))

theorem next_genCall {N : Nat} {s s' : State} {a : Action} (hi : Inv N s)
    (hn : Next N s a s') :
    s'.gen.pc = .callFn → ∃ k, s'.sentIn = genSeq k ++ [s'.gen.n] ∧ s'.gen.n = genValue k := by
  have hb := hi.genCall
  cases hn <;> dsimp only <;> try exact hb
  case goGen hm => simp [Generator.entry]
  case genSend i v hg hv hw hc =>
    intro _
    refine ⟨s.sentIn.length, ?_, hi.genN (Or.inl hg)⟩
    rw [← hi.genSent, hv]
  case genCtxDone hc hg => simp
  case fnAddCount hf hg => simp
  case genClose hg hc => simp

theorem next_fnMidPc {N : Nat} {s s' : State} {a : Action} (hi : Inv N s)
    (hn : Next N s a s') : s'.fnMid = true → s'.gen.pc = .callFn := by
  have hb := hi.fnMidPc
  cases hn <;> dsimp only <;> try exact hb
  case goGen hm =>
    intro h
    have := hb h
    rw [hi.genStarted.2 hm] at this
    cases this
  case genSend i v hg hv hw hc => simp
  case genCtxDone hc hg => intro h; have := hb h; rw [hg] at this; cases this
  case fnAddSum hg hf => intro _; exact hg
  case fnAddCount hf hg => simp
  case genClose hg hc => intro h; have := hb h; rw [hg] at this; cases this

theorem next_fnPending {N : Nat} {s s' : State} {a : Action} (hi : Inv N s)
    (hn : Next N s a s') :
    s'.gen.pc = .callFn → s'.fnMid = false → s'.sentIn = s'.fnArgs ++ [s'.gen.n] := by
  have hb := hi.fnPending
  cases hn <;> dsimp only <;> try exact hb
  case goGen hm => simp [Generator.entry]
  case genSend i v hg hv hw hc =>
    intro _ _
    rw [hi.fnSettled (Or.inl (by rw [hg]; simp)), hv]
  case genCtxDone hc hg => simp
  case fnAddSum hg hf => simp
  case fnAddCount hf hg => simp
  case genClose hg hc => simp

theorem next_fnSettled {N : Nat} {s s' : State} {a : Action} (hi : Inv N s)
    (hn : Next N s a s') :
    s'.gen.pc ≠ .callFn ∨ s'.fnMid = true → s'.fnArgs = s'.sentIn := by
  have hb := hi.fnSettled
  cases hn <;> dsimp only <;> try exact hb
  case goGen hm =>
    intro _
    exact hb (Or.inl (by rw [hi.genStarted.2 hm]; simp))
  case genSend i v hg hv hw hc =>
    intro h
    rcases h with h | h
    · simp at h
    · have := hi.fnMidPc h
      rw [hg] at this
      cases this
  case genCtxDone hc hg => intro _; exact hb (Or.inl (by rw [hg]; simp))
  case fnAddSum hg hf => intro _; exact (hi.fnPending hg hf).symm
  case fnAddCount hf hg => intro _; exact hb (Or.inr hf)
  case genClose hg hc => intro _; exact hb (Or.inl (by rw [hg]; simp))

theorem next_inSum {N : Nat} {s s' : State} {a : Action} (hi : Inv N s)
    (hn : Next N s a s') : s'.inputSum = wrap64 s'.fnArgs.sum := by
  have hb := hi.inSum
  cases hn <;> dsimp only
  case fnAddSum hg hf =>
    rw [hb, wrap64_add_left]
    simp
  all_goals exact hb

theorem next_inCount {N : Nat} {s s' : State} {a : Action} (hi : Inv N s)
    (hn : Next N s a s') :
    s'.inputCount = wrap64 ((s'.fnArgs.length : Int) - (if s'.fnMid then 1 else 0)) := by
  have hb := hi.inCount
  cases hn <;> dsimp only
  case fnAddSum hg hf =>
    rw [hb, hf]
    simp
  case fnAddCount hf hg =>
    rw [hb, hf, wrap64_add_left]
    simp
  all_goals exact hb

theorem next_inClosed {N : Nat} {s s' : State} {a : Action} (hi : Inv N s)
    (hn : Next N s a s') : s'.chInClosed = true ↔ s'.gen.pc = .done := by
  have hb := hi.inClosed
  cases hn <;> dsimp only <;> try exact hb
  case goGen hm =>
    rw [hi.genStarted.2 hm] at hb
    simpa [Generator.entry] using hb
  case genSend i v hg hv hw hc => simp [hc]
  case genCtxDone hc hg => simpa [hg] using hb
  case fnAddCount hf hg => simpa [hg] using hb
  case genClose hg hc => simp

theorem next_genCancelled {N : Nat} {s s' : State} {a : Action} (hi : Inv N s)
    (hn : Next N s a s') : s'.gen.pc = .closing ∨ s'.gen.pc = .done → s'.cancelled = true := by
  have hb := hi.genCancelled
  cases hn <;> dsimp only <;> try exact hb
  case cancel hc => intro _; rfl
  case goGen hm => simp [Generator.entry]
  case genSend i v hg hv hw hc => simp
  case genCtxDone hc hg => intro _; exact hc
  case fnAddCount hf hg => simp
  case genClose hg hc => intro _; exact hb (Or.inl hg)

/-! ## Preservation of the invariant: histories and counters -/

theorem sum_update_add {M : Type} [AddCommMonoid M] (f : Nat → M) {i N : Nat} (h : i < N)
    (x : M) :
    ∑ j in Finset.range N, Function.update f i x j + f i = ∑ j in Finset.range N, f j + x := by
  have hm : i ∈ Finset.range N := Finset.mem_range.2 h
  rw [Finset.sum_update_of_mem hm, Finset.sdiff_singleton_eq_erase, ← Finset.add_sum_erase _ f hm]
  abel

theorem sum_update_append {M : Type} [AddCommMonoid M] (f : Nat → M) {i N : Nat} (h : i < N)
    (y : M) :
    ∑ j in Finset.range N, Function.update f i (f i + y) j = ∑ j in Finset.range N, f j + y := by
  have hm : i ∈ Finset.range N := Finset.mem_range.2 h
  rw [Finset.sum_update_of_mem hm, Finset.sdiff_singleton_eq_erase, ← Finset.add_sum_erase _ f hm]
  abel

theorem sum_update_comp {M : Type} [AddCommMonoid M] {α : Type} (g : α → M) (f : Nat → α)
    {i N : Nat} (x : α) :
    ∑ j in Finset.range N, g (Function.update f i x j)
      = ∑ j in Finset.range N, Function.update (fun j => g (f j)) i (g x) j := by
  apply Finset.sum_congr rfl
  intro j _
  simp only [Function.update_apply]
  split_ifs <;> rfl

theorem next_gotFwd {N : Nat} {s s' : State} {a : Action} (hi : Inv N s)
    (hn : Next N s a s') : ∀ i, s'.got i = s'.fwd i ++ wHold (s'.worker i) := by
  have hb := hi.gotFwd
  have hw' := hi.workerStarted
  cases hn <;> dsimp only <;> try exact hb
  case goWorker j hm =>
    intro i
    have := hb i
    simp only [Function.update_apply]
    split_ifs with hij
    · subst hij
      have h2 := hw' i
      rw [hm] at h2
      simp [spawnedWorkers] at h2
      rw [h2] at this
      simpa [wHold] using this
    · exact this
  all_goals
    intro j
    have := hb j
    simp only [Function.update_apply]
    split_ifs with hij
    · subst hij; simp_all [wHold]
    · exact this

theorem next_fwdRelayed {N : Nat} {s s' : State} {a : Action} (hi : Inv N s)
    (hn : Next N s a s') : ∀ i, s'.fwd i = s'.relayed i ++ dHold (s'.drain i) := by
  have hb := hi.fwdRelayed
  have hw' := hi.drainStarted
  cases hn <;> dsimp only <;> try exact hb
  case goDrain j hm =>
    intro i
    have := hb i
    simp only [Function.update_apply]
    split_ifs with hij
    · subst hij
      have h2 := hw' i
      rw [hm] at h2
      simp [spawnedDrains] at h2
      rw [h2] at this
      simpa [dHold] using this
    · exact this
  all_goals
    intro j
    have := hb j
    simp only [Function.update_apply]
    split_ifs with hij
    · subst hij; simp_all [dHold]
    · exact this

theorem next_sentGot {N : Nat} {s s' : State} {a : Action} (hi : Inv N s)
    (hn : Next N s a s') :
    (↑s'.sentIn : Multiset Int) = ∑ i in Finset.range N, (↑(s'.got i) : Multiset Int) := by
  have hb := hi.sentGot
  cases hn <;> dsimp only <;> try exact hb
  case genSend i v hg hv hw hc =>
    have hN : i < N := worker_started_lt hi i (by rw [hw]; simp)
    rw [sum_update_comp (fun l : List Int => (↑l : Multiset Int))]
    simp only [← Multiset.coe_add]
    rw [sum_update_append _ hN, ← hb]

theorem next_relayedRecvd {N : Nat} {s s' : State} {a : Action} (hi : Inv N s)
    (hn : Next N s a s') :
    ∑ i in Finset.range N, (↑(s'.relayed i) : Multiset Int)
      = (↑s'.recvd : Multiset Int) + ↑s'.chOut := by
  have hb := hi.relayedRecvd
  cases hn <;> dsimp only <;> try exact hb
  case drainSend i v hd hc hl =>
    have hN : i < N := drain_started_lt hi i (by rw [hd]; simp)
    rw [sum_update_comp (fun l : List Int => (↑l : Multiset Int))]
    simp only [← Multiset.coe_add]
    rw [sum_update_append _ hN, hb, add_assoc]
  case mainRecv v hm hh =>
    rw [hb]
    cases hco : s.chOut with
    | nil => rw [hco] at hh; simp at hh
    | cons x rest =>
      rw [hco] at hh
      simp at hh
      subst hh
      simp

theorem next_gotSublist {N : Nat} {s s' : State} {a : Action} (hi : Inv N s)
    (hn : Next N s a s') : ∀ i, List.Sublist (s'.got i) s'.sentIn := by
  have hb := hi.gotSublist
  cases hn <;> dsimp only <;> try exact hb
  case genSend i v hg hv hw hc =>
    intro j
    have := hb j
    simp only [Function.update_apply]
    split_ifs with hij
    · subst hij
      exact List.Sublist.append this (List.Sublist.refl _)
    · exact this.trans (List.sublist_append_left _ _)

theorem wrap64_sub_add (x : Int) : wrap64 (wrap64 (x - 1) + 1) = wrap64 (x - 0) := by
  unfold wrap64; omega

theorem next_amountsEq {N : Nat} {s s' : State} {a : Action} (hi : Inv N s)
    (hn : Next N s a s') :
    ∀ i, s'.amounts i = wrap64 (((s'.relayed i).length : Int) - dPending (s'.drain i)) := by
  have hb := hi.amountsEq
  have hw' := hi.drainStarted
  cases hn <;> dsimp only
  case goDrain j hm =>
    intro i
    have := hb i
    simp only [Function.update_apply]
    split_ifs with hij
    · subst hij
      have h2 := hw' i
      rw [hm] at h2
      simp [spawnedDrains] at h2
      rw [h2] at this
      rw [this]
      rfl
    · exact this
  case workerSend j v hw hd hc =>
    intro i
    have := hb i
    simp only [Function.update_apply]
    split_ifs with hij
    · subst hij
      rw [hd] at this
      rw [this]
      rfl
    · exact this
  case drainInClosed j hd hc =>
    intro i
    have := hb i
    simp only [Function.update_apply]
    split_ifs with hij
    · subst hij
      rw [hd] at this
      rw [this]
      rfl
    · exact this
  case drainWgDone j hd hw =>
    intro i
    have := hb i
    simp only [Function.update_apply]
    split_ifs with hij
    · subst hij
      rw [hd] at this
      rw [this]
      rfl
    · exact this
  case drainSend j v hd hc hl =>
    intro i
    have := hb i
    simp only [Function.update_apply]
    split_ifs with hij
    · subst hij
      rw [hd] at this
      rw [this]
      simp only [dPending, List.length_append, List.length_singleton]
      congr 1
      push_cast
      ring
    · exact this
  case drainInc j hd =>
    intro i
    have := hb i
    simp only [Function.update_apply]
    split_ifs with hij
    · subst hij
      rw [hd] at this
      rw [this]
      exact wrap64_sub_add _
    · exact this
  all_goals exact hb

theorem next_sumEq {N : Nat} {s s' : State} {a : Action} (hi : Inv N s)
    (hn : Next N s a s') : s'.sum = wrap64 s'.recvd.sum := by
  have hb := hi.sumEq
  cases hn <;> dsimp only
  case mainRecv v hm hh =>
    rw [hb, wrap64_add_left]
    simp
  all_goals exact hb

theorem next_countEq {N : Nat} {s s' : State} {a : Action} (hi : Inv N s)
    (hn : Next N s a s') : s'.count = wrap64 (s'.recvd.length : Int) := by
  have hb := hi.countEq
  cases hn <;> dsimp only
  case mainRecv v hm hh =>
    rw [hb, wrap64_add_left]
    simp
  all_goals exact hb

/-! ## Preservation of the invariant: closing, WaitGroup, merged channel -/

theorem next_outClosedIff {N : Nat} {s s' : State} {a : Action} (hi : Inv N s)
    (hn : Next N s a s') : ∀ i, s'.outClosed i = true ↔ s'.worker i = .done := by
  have hb := hi.outClosedIff
  have hw' := hi.workerStarted
  cases hn <;> dsimp only <;> try exact hb
  case goWorker j hm =>
    intro i
    have := hb i
    simp only [Function.update_apply]
    split_ifs with hij
    · subst hij
      have h2 := hw' i
      rw [hm] at h2
      simp [spawnedWorkers] at h2
      rw [h2] at this
      simpa using this
    · exact this
  all_goals
    intro j
    have := hb j
    simp only [Function.update_apply]
    split_ifs with hij
    · subst hij; simp_all
    · exact this

theorem next_workerClosing {N : Nat} {s s' : State} {a : Action} (hi : Inv N s)
    (hn : Next N s a s') :
    ∀ i, s'.worker i = .closeOut ∨ s'.worker i = .done → s'.chInClosed = true := by
  have hb := hi.workerClosing
  cases hn <;> dsimp only <;> try exact hb
  case genClose hg hc => intro _ _; rfl
  all_goals
    intro j
    have := hb j
    simp only [Function.update_apply]
    split_ifs with hij
    · subst hij; simp_all
    · exact this

theorem next_drainClosing {N : Nat} {s s' : State} {a : Action} (hi : Inv N s)
    (hn : Next N s a s') :
    ∀ i, s'.drain i = .wgDone ∨ s'.drain i = .done → s'.outClosed i = true := by
  have hb := hi.drainClosing
  cases hn <;> dsimp only <;> try exact hb
  all_goals
    intro j
    have := hb j
    simp only [Function.update_apply]
    split_ifs with hij
    · subst hij; simp_all
    · exact this

theorem sum_wgHeld_update {N : Nat} (f : Nat → DrainPc) (i : Nat) (x : DrainPc) (h : i < N) :
    ∑ j in Finset.range N, wgHeld (Function.update f i x j) + wgHeld (f i)
      = ∑ j in Finset.range N, wgHeld (f j) + wgHeld x := by
  rw [sum_update_comp wgHeld]
  exact sum_update_add (fun j => wgHeld (f j)) h (wgHeld x)

theorem wgHeld_vals (v : Int) :
    wgHeld DrainPc.notStarted = 0 ∧ wgHeld DrainPc.recv = 1 ∧ wgHeld (DrainPc.sendOut v) = 1 ∧
      wgHeld DrainPc.incAmount = 1 ∧ wgHeld DrainPc.wgDone = 1 ∧ wgHeld DrainPc.done = 0 :=
  ⟨rfl, rfl, rfl, rfl, rfl, rfl⟩

theorem next_wgEq {N : Nat} {s s' : State} {a : Action} (hi : Inv N s)
    (hn : Next N s a s') :
    s'.wg = wgAhead s'.main + ∑ i in Finset.range N, wgHeld (s'.drain i) := by
  have hb := hi.wgEq
  have hd' := hi.drainStarted
  have hm' := hi.mainBound
  cases hn <;> dsimp only <;> try exact hb
  case goGen hm => rw [(nextWorker_ne N 0).2.2.2.1, hb, hm]; rfl
  case goWorker j hm => rw [(nextWorker_ne N (j + 1)).2.2.2.1, hb, hm]; rfl
  case wgAdd j hm =>
    have e7 : wgAhead (MainPc.goDrain j) = 1 := rfl
    have e8 : wgAhead (MainPc.wgAdd j) = 0 := rfl
    rw [hb, hm]
    omega
  case goDrain j hm =>
    have hj := hm' j (Or.inr (Or.inr hm))
    have h1 := sum_wgHeld_update s.drain j DrainPc.recv hj
    have h2 := hd' j
    rw [hm] at h2
    simp [spawnedDrains] at h2
    rw [h2] at h1
    obtain ⟨e1, e2, e3, e4, e5, e6⟩ := wgHeld_vals 0
    have e7 : wgAhead (MainPc.goDrain j) = 1 := rfl
    rw [(nextDrain_ne N (j + 1)).2.2.2.1, hb, hm]
    omega
  case goCloser hm => rw [hb, hm]; rfl
  case mainEnd hm he hc => rw [hb, hm]; rfl
  case workerSend j v hw hd hc =>
    have hj : j < N := drain_started_lt hi j (by rw [hd]; simp)
    have h1 := sum_wgHeld_update s.drain j (DrainPc.sendOut v) hj
    rw [hd] at h1
    obtain ⟨e1, e2, e3, e4, e5, e6⟩ := wgHeld_vals v
    rw [hb]
    omega
  case drainInClosed j hd hc =>
    have hj : j < N := drain_started_lt hi j (by rw [hd]; simp)
    have h1 := sum_wgHeld_update s.drain j DrainPc.wgDone hj
    rw [hd] at h1
    obtain ⟨e1, e2, e3, e4, e5, e6⟩ := wgHeld_vals 0
    rw [hb]
    omega
  case drainSend j v hd hc hl =>
    have hj : j < N := drain_started_lt hi j (by rw [hd]; simp)
    have h1 := sum_wgHeld_update s.drain j DrainPc.incAmount hj
    rw [hd] at h1
    obtain ⟨e1, e2, e3, e4, e5, e6⟩ := wgHeld_vals v
    rw [hb]
    omega
  case drainInc j hd =>
    have hj : j < N := drain_started_lt hi j (by rw [hd]; simp)
    have h1 := sum_wgHeld_update s.drain j DrainPc.recv hj
    rw [hd] at h1
    obtain ⟨e1, e2, e3, e4, e5, e6⟩ := wgHeld_vals 0
    rw [hb]
    omega
  case drainWgDone j hd hw =>
    have hj : j < N := drain_started_lt hi j (by rw [hd]; simp)
    have h1 := sum_wgHeld_update s.drain j DrainPc.done hj
    rw [hd] at h1
    obtain ⟨e1, e2, e3, e4, e5, e6⟩ := wgHeld_vals 0
    rw [hb]
    omega

theorem next_closerDone {N : Nat} {s s' : State} {a : Action} (hi : Inv N s)
    (hn : Next N s a s') :
    s'.closer = .close ∨ s'.closer = .done → ∀ i, i < N → s'.drain i = .done := by
  have hb := hi.closerDone
  have hcs := hi.closerStarted
  cases hn <;> dsimp only <;> try exact hb
  case goDrain j hm =>
    intro h
    have h1 : s.closer ≠ .notStarted := by rcases h with h | h <;> rw [h] <;> simp
    rw [hcs, hm] at h1
    simp at h1
  case goCloser hm => simp
  case closerWait hc hw =>
    intro _ i hiN
    have h1 := hi.wgEq
    rw [hw] at h1
    have h2 : ∑ j in Finset.range N, wgHeld (s.drain j) = 0 := by omega
    have h3 := (Finset.sum_eq_zero_iff.1 h2) i (Finset.mem_range.2 hiN)
    have h4 : s.closer ≠ .notStarted := by rw [hc]; simp
    rw [hcs] at h4
    have h5 : spawnedDrains N s.main = N := by
      rcases h4 with h4 | h4 <;> rw [h4] <;> rfl
    have h6 := (hi.drainStarted i).2 (by rw [h5]; exact hiN)
    cases hd : s.drain i <;> rw [hd] at h3 h6 <;> simp [wgHeld] at h3 h6
  case closerClose hc ho => intro _; exact hb (Or.inl hc)
  case workerSend j v hw hd hc =>
    intro h
    have h1 := hb h j (drain_started_lt hi j (by rw [hd]; simp))
    rw [hd] at h1
    cases h1
  case drainInClosed j hd hc =>
    intro h
    have h1 := hb h j (drain_started_lt hi j (by rw [hd]; simp))
    rw [hd] at h1
    cases h1
  case drainSend j v hd hc hl =>
    intro h
    have h1 := hb h j (drain_started_lt hi j (by rw [hd]; simp))
    rw [hd] at h1
    cases h1
  case drainInc j hd =>
    intro h
    have h1 := hb h j (drain_started_lt hi j (by rw [hd]; simp))
    rw [hd] at h1
    cases h1
  case drainWgDone j hd hw =>
    intro h
    have h1 := hb h j (drain_started_lt hi j (by rw [hd]; simp))
    rw [hd] at h1
    cases h1

theorem next_outClosedIffCloser {N : Nat} {s s' : State} {a : Action} (hi : Inv N s)
    (hn : Next N s a s') : s'.chOutClosed = true ↔ s'.closer = .done := by
  have hb := hi.outClosedIffCloser
  cases hn <;> dsimp only <;> try exact hb
  case goCloser hm =>
    have h1 := hi.closerStarted
    rw [hm] at h1
    simp at h1
    rw [h1] at hb
    simpa using hb
  case closerWait hc hw => simpa [hc] using hb
  case closerClose hc ho => simp

theorem next_endedClosed {N : Nat} {s s' : State} {a : Action} (hi : Inv N s)
    (hn : Next N s a s') : s'.main = .ended → s'.chOutClosed = true ∧ s'.chOut = [] := by
  have hb := hi.endedClosed
  cases hn <;> dsimp only <;> try exact hb
  case goGen hm => intro h; exact absurd h (nextWorker_ne N 0).2.2.1
  case goWorker j hm => intro h; exact absurd h (nextWorker_ne N (j + 1)).2.2.1
  case wgAdd j hm => simp
  case goDrain j hm => intro h; exact absurd h (nextDrain_ne N (j + 1)).2.2.1
  case goCloser hm => simp
  case drainSend j v hd hc hl =>
    intro h
    have := (hb h).1
    rw [hc] at this
    cases this
  case closerClose hc ho => intro h; exact ⟨rfl, (hb h).2⟩
  case mainRecv v hm hh => intro h; rw [hm] at h; cases h
  case mainEnd hm he hc => intro _; exact ⟨hc, he⟩

theorem next_chOutCap {N : Nat} {s s' : State} {a : Action} (hi : Inv N s)
    (hn : Next N s a s') : s'.chOut.length ≤ N := by
  have hb := hi.chOutCap
  cases hn <;> dsimp only <;> try exact hb
  case drainSend j v hd hc hl => simp; omega
  case mainRecv v hm hh => simp; omega

theorem next_inv {N : Nat} {s s' : State} {a : Action} (hi : Inv N s) (hn : Next N s a s') :
    Inv N s' where
  noPanic := next_noPanic hi hn
  mainBound := next_mainBound hi hn
  genStarted := next_genStarted hi hn
  workerStarted := next_workerStarted hi hn
  drainStarted := next_drainStarted hi hn
  closerStarted := next_closerStarted hi hn
  genIdle := next_genIdle hi hn
  genSent := next_genSent hi hn
  genN := next_genN hi hn
  genCall := next_genCall hi hn
  fnPending := next_fnPending hi hn
  fnSettled := next_fnSettled hi hn
  fnMidPc := next_fnMidPc hi hn
  inSum := next_inSum hi hn
  inCount := next_inCount hi hn
  inClosed := next_inClosed hi hn
  genCancelled := next_genCancelled hi hn
  gotFwd := next_gotFwd hi hn
  fwdRelayed := next_fwdRelayed hi hn
  sentGot := next_sentGot hi hn
  relayedRecvd := next_relayedRecvd hi hn
  gotSublist := next_gotSublist hi hn
  amountsEq := next_amountsEq hi hn
  sumEq := next_sumEq hi hn
  countEq := next_countEq hi hn
  outClosedIff := next_outClosedIff hi hn
  workerClosing := next_workerClosing hi hn
  drainClosing := next_drainClosing hi hn
  wgEq := next_wgEq hi hn
  closerDone := next_closerDone hi hn
  outClosedIffCloser := next_outClosedIffCloser hi hn
  endedClosed := next_endedClosed hi hn
  chOutCap := next_chOutCap hi hn

theorem inv_init (N : Nat) : Inv N init where
  noPanic := rfl
  mainBound := by intro i h; simp [init] at h
  genStarted := by simp [init, Generator.idle]
  workerStarted := by intro i; simp [init, spawnedWorkers]
  drainStarted := by intro i; simp [init, spawnedDrains]
  closerStarted := by simp [init]
  genIdle := by intro _; rfl
  genSent := by simp [init, genSeq]
  genN := by simp [init, Generator.idle]
  genCall := by simp [init, Generator.idle]
  fnPending := by simp [init, Generator.idle]
  fnSettled := by intro _; rfl
  fnMidPc := by simp [init]
  inSum := by simp [init, wrap64]
  inCount := by simp [init, wrap64]
  inClosed := by simp [init, Generator.idle]
  genCancelled := by simp [init, Generator.idle]
  gotFwd := by intro i; simp [init, wHold]
  fwdRelayed := by intro i; simp [init, dHold]
  sentGot := by simp [init]
  relayedRecvd := by simp [init]
  gotSublist := by intro i; simp [init]
  amountsEq := by intro i; simp [init, dPending, wrap64]
  sumEq := by simp [init, wrap64]
  countEq := by simp [init, wrap64]
  outClosedIff := by intro i; simp [init]
  workerClosing := by intro i; simp [init]
  drainClosing := by intro i; simp [init]
  wgEq := by simp [init, wgAhead, wgHeld]
  closerDone := by simp [init]
  outClosedIffCloser := by simp [init]
  endedClosed := by simp [init]
  chOutCap := by simp [init]

theorem inv_step {N : Nat} {s s' : State} {a : Action} (hi : Inv N s)
    (h : step N s a = some s') : Inv N s' :=
  next_inv hi (step_next hi h)

theorem inv_reachable {N : Nat} {s : State} (h : Reachable N s) : Inv N s := by
  induction h with
  | init => exact inv_init N
  | step a _ hs ih => exact inv_step ih hs

/-! ## The state after the receive loop -/

theorem settled_of_closer {N : Nat} {s : State} (hi : Inv N s) (hc : s.chOutClosed = true)
    (he : s.chOut = []) : Settled N s := by
  have h2 : s.closer = .done := hi.outClosedIffCloser.1 hc
  have h3 : ∀ i, i < N → s.drain i = .done := hi.closerDone (Or.inr h2)
  have h4 : ∀ i, i < N → s.outClosed i = true := fun i hiN =>
    hi.drainClosing i (Or.inr (h3 i hiN))
  have h5 : ∀ i, i < N → s.worker i = .done := fun i hiN => (hi.outClosedIff i).1 (h4 i hiN)
  have h6 : ∀ i, i < N → s.got i = s.fwd i := by
    intro i hiN
    have := hi.gotFwd i
    rw [h5 i hiN] at this
    simpa [wHold] using this
  have h7 : ∀ i, i < N → s.fwd i = s.relayed i := by
    intro i hiN
    have := hi.fwdRelayed i
    rw [h3 i hiN] at this
    simpa [dHold] using this
  have h8 : (↑s.recvd : Multiset Int) = ↑s.sentIn := by
    have h9 := hi.relayedRecvd
    rw [he] at h9
    rw [hi.sentGot]
    have : (↑s.recvd : Multiset Int) = ∑ i in Finset.range N, (↑(s.relayed i) : Multiset Int) := by
      rw [h9]; simp
    rw [this]
    apply Finset.sum_congr rfl
    intro i hiR
    have hiN := Finset.mem_range.1 hiR
    rw [h6 i hiN, h7 i hiN]
  have h10 : s.gen.pc ≠ .callFn := by
    intro hpc
    obtain ⟨k, hk, _⟩ := hi.genCall hpc
    have hne : s.sentIn ≠ [] := by rw [hk]; simp
    have hN : 0 < N := by
      rcases Nat.eq_zero_or_pos N with h0 | h0
      · exfalso
        apply hne
        have := hi.sentGot
        rw [h0] at this
        simpa using this
      · exact h0
    have := hi.inClosed.1 (hi.workerClosing 0 (Or.inr (h5 0 hN)))
    rw [hpc] at this
    cases this
  have h11 : s.fnMid = false := by
    cases hf : s.fnMid
    · rfl
    · exact absurd (hi.fnMidPc hf) h10
  exact ⟨hc, he, h2, h3, h5, h4, h6, h7, h8, h11, hi.fnSettled (Or.inl h10)⟩

theorem settled_of_ended {N : Nat} {s : State} (hi : Inv N s) (he : s.main = .ended) :
    Settled N s :=
  settled_of_closer hi (hi.endedClosed he).1 (hi.endedClosed he).2

theorem reachable_run {N : Nat} {s : State} (hr : Reachable N s) :
    ∀ (as : List Action) (s' : State), run N s as = some s' → Reachable N s' := by
  intro as
  induction as generalizing s with
  | nil => intro s' h; simp [run] at h; subst h; exact hr
  | cons a as ih =>
    intro s' h
    simp only [run] at h
    cases hs : step N s a with
    | none => rw [hs] at h; simp at h
    | some t =>
      rw [hs] at h
      exact ih (Reachable.step a hr hs) s' h

theorem reachable_exec (N : Nat) (as : List Action) : Reachable N (exec N as) := by
  unfold exec
  cases h : run N init as with
  | none => exact Reachable.init
  | some s => exact reachable_run Reachable.init as s h

/-! ## Conservation of count, sum and values -/

theorem wrap64_sub_right (x y : Int) : wrap64 (x - wrap64 y) = wrap64 (x - y) := by
  unfold wrap64; omega

theorem wrap64_sub_left (x y : Int) : wrap64 (wrap64 x - y) = wrap64 (x - y) := by
  unfold wrap64; omega

theorem wrap64_zero : wrap64 0 = 0 := by
  unfold wrap64; omega

theorem wrap64_idem (x : Int) : wrap64 (wrap64 x) = wrap64 x := by
  unfold wrap64; omega

theorem subtractAmounts_eq (amounts : Nat → Int) (x : Int) (k : Nat) :
    subtractAmounts amounts (wrap64 x) k = wrap64 (x - ∑ i in Finset.range k, amounts i) := by
  induction k with
  | zero => simp [subtractAmounts]
  | succ k ih =>
    rw [subtractAmounts, ih, wrap64_sub_left, Finset.sum_range_succ]
    congr 1
    ring

theorem wrap64_sub_sum (l : Nat → Int) (k : Nat) : ∀ y : Int,
    wrap64 (y - ∑ i in Finset.range k, wrap64 (l i)) = wrap64 (y - ∑ i in Finset.range k, l i) := by
  induction k with
  | zero => intro y; simp
  | succ k ih =>
    intro y
    rw [Finset.sum_range_succ, Finset.sum_range_succ]
    have e1 : y - (∑ i in Finset.range k, wrap64 (l i) + wrap64 (l k))
        = (y - wrap64 (l k)) - ∑ i in Finset.range k, wrap64 (l i) := by ring
    have e2 : y - (∑ i in Finset.range k, l i + l k)
        = (y - ∑ i in Finset.range k, l i) - l k := by ring
    have e3 : y - wrap64 (l k) - ∑ i in Finset.range k, l i
        = (y - ∑ i in Finset.range k, l i) - wrap64 (l k) := by ring
    rw [e1, ih, e2, e3, wrap64_sub_right]

theorem card_sum_coe (f : Nat → List Int) (k : Nat) :
    Multiset.card (∑ i in Finset.range k, (↑(f i) : Multiset Int))
      = ∑ i in Finset.range k, (f i).length := by
  induction k with
  | zero => simp
  | succ k ih => rw [Finset.sum_range_succ, Finset.sum_range_succ, Multiset.card_add, ih]; simp

theorem countUp_sorted (k : Nat) : List.Sorted (· < ·) (countUp k) := by
  unfold countUp List.Sorted
  rw [List.pairwise_map]
  exact (List.pairwise_lt_range k).imp (by intro a b h; omega)

theorem settled_lengths {N : Nat} {s : State} (hi : Inv N s) (st : Settled N s) :
    ∑ i in Finset.range N, (s.fwd i).length = s.fnArgs.length := by
  have h1 := congrArg Multiset.card hi.sentGot
  rw [card_sum_coe] at h1
  rw [st.fnArgsEq]
  simp only [Multiset.coe_card] at h1
  rw [h1]
  apply Finset.sum_congr rfl
  intro i hiR
  rw [st.gotEq i (Finset.mem_range.1 hiR)]

theorem count_eq_of_settled {N : Nat} {s : State} (hi : Inv N s) (st : Settled N s) :
    s.count = s.inputCount := by
  have hp : s.recvd.Perm s.sentIn := Multiset.coe_eq_coe.1 st.recvdEq
  rw [hi.countEq, hi.inCount, st.fnIdle, st.fnArgsEq, hp.length_eq]
  simp

theorem sum_eq_of_settled {N : Nat} {s : State} (hi : Inv N s) (st : Settled N s) :
    s.sum = s.inputSum := by
  have hp : s.recvd.Perm s.sentIn := Multiset.coe_eq_coe.1 st.recvdEq
  rw [hi.sumEq, hi.inSum, st.fnArgsEq, hp.sum_eq]

/-- C1: when the receive loop of `main` has ended, `count` equals `inputCount`,
and the number of values received equals the number of calls of the callback. -/
theorem C1_count_conserved (N : Nat) (s : State) (hr : Reachable N s)
    (he : s.main = .ended) :
    s.count = s.inputCount ∧ s.recvd.length = s.fnArgs.length := by
  have hi := inv_reachable hr
  have st := settled_of_ended hi he
  have hp : s.recvd.Perm s.sentIn := Multiset.coe_eq_coe.1 st.recvdEq
  have hl : s.recvd.length = s.fnArgs.length := by rw [st.fnArgsEq]; exact hp.length_eq
  refine ⟨?_, hl⟩
  rw [hi.countEq, hi.inCount, st.fnIdle, hl]
  simp

theorem C1_count_conserved_witness :
    (exec NumOut fullRun).main = .ended ∧ (exec NumOut fullRun).inputCount = 4 ∧
      ((exec NumOut fullRun).count = (exec NumOut fullRun).inputCount ∧
        (exec NumOut fullRun).recvd.length = (exec NumOut fullRun).fnArgs.length) :=
  ⟨by decide, by decide,
    C1_count_conserved NumOut (exec NumOut fullRun) (reachable_exec NumOut fullRun) (by decide)⟩

/-- C2: when the receive loop of `main` has ended, `sum` equals `inputSum`, and
the values received add up to the same as the arguments of the callback. -/
theorem C2_sum_conserved (N : Nat) (s : State) (hr : Reachable N s) (he : s.main = .ended) :
    s.sum = s.inputSum ∧ s.recvd.sum = s.fnArgs.sum := by
  have hi := inv_reachable hr
  have st := settled_of_ended hi he
  have hp : s.recvd.Perm s.sentIn := Multiset.coe_eq_coe.1 st.recvdEq
  have hl : s.recvd.sum = s.fnArgs.sum := by rw [st.fnArgsEq]; exact hp.sum_eq
  refine ⟨?_, hl⟩
  rw [hi.sumEq, hi.inSum, hl]

theorem C2_sum_conserved_witness :
    (exec NumOut fullRun).main = .ended ∧ (exec NumOut fullRun).inputSum = 10 ∧
      ((exec NumOut fullRun).sum = (exec NumOut fullRun).inputSum ∧
        (exec NumOut fullRun).recvd.sum = (exec NumOut fullRun).fnArgs.sum) :=
  ⟨by decide, by decide,
    C2_sum_conserved NumOut (exec NumOut fullRun) (reachable_exec NumOut fullRun) (by decide)⟩

/-- C3: when the receive loop of `main` has ended, the multiset of values
`main` received equals the multiset of values the generator sent on `chIn`;
the values sent are split among the workers, and what worker `i` received it
forwarded on `outs[i]` and drain `i` relayed to `chOut`, in the same order. -/
theorem C3_no_loss_no_duplication (N : Nat) (s : State) (hr : Reachable N s)
    (he : s.main = .ended) :
    (↑s.recvd : Multiset Int) = ↑s.sentIn ∧
      (↑s.sentIn : Multiset Int) = ∑ i in Finset.range N, (↑(s.got i) : Multiset Int) ∧
      (∀ i, i < N → s.fwd i = s.got i ∧ s.relayed i = s.fwd i) ∧
      ∑ i in Finset.range N, (↑(s.relayed i) : Multiset Int) = ↑s.recvd := by
  have hi := inv_reachable hr
  have st := settled_of_ended hi he
  refine ⟨st.recvdEq, hi.sentGot, ?_, ?_⟩
  · intro i hiN
    exact ⟨(st.gotEq i hiN).symm, (st.fwdEq i hiN).symm⟩
  · have := hi.relayedRecvd
    rw [st.chOutEmpty] at this
    simpa using this

theorem C3_no_loss_no_duplication_witness :
    (exec 2 demoRun).main = .ended ∧ (exec 2 demoRun).sentIn = [1, 2, 3] ∧
      (↑(exec 2 demoRun).recvd : Multiset Int) = ↑(exec 2 demoRun).sentIn :=
  ⟨by decide, by decide,
    (C3_no_loss_no_duplication 2 (exec 2 demoRun) (reachable_exec 2 demoRun) (by decide)).1⟩

/-! ## Per-worker accounting -/

theorem settled_amounts {N : Nat} {s : State} (hi : Inv N s) (st : Settled N s) (i : Nat)
    (hiN : i < N) : s.amounts i = wrap64 ((s.fwd i).length : Int) := by
  rw [hi.amountsEq i, st.drainDone i hiN, st.fwdEq i hiN]
  simp [dPending]

/-- Accounting in `int64`: when the receive loop of `main` has ended, the two
equality checks and the loop `inputCount -= amounts[i]` leave `0`, so no check
fails; `amounts[i]` is the number of values worker `i` forwarded, reduced to
`int64`; and these numbers add up to the number of calls of the callback. -/
theorem accounting_wrapped {N : Nat} {s : State} (hi : Inv N s) (st : Settled N s) :
    subtractAmounts s.amounts s.inputCount N = 0 ∧ checksPass N s = true ∧
      ∑ i in Finset.range N, (s.fwd i).length = s.fnArgs.length ∧
      s.inputCount = wrap64 (s.fnArgs.length : Int) := by
  have hl := settled_lengths hi st
  have ha := settled_amounts hi st
  have hc : s.inputCount = wrap64 (s.fnArgs.length : Int) := by
    rw [hi.inCount, st.fnIdle]; simp
  have hsum : ∑ i in Finset.range N, s.amounts i
      = ∑ i in Finset.range N, wrap64 ((s.fwd i).length : Int) :=
    Finset.sum_congr rfl (fun i hiR => ha i (Finset.mem_range.1 hiR))
  have h0 : subtractAmounts s.amounts s.inputCount N = 0 := by
    rw [hc, subtractAmounts_eq, hsum, wrap64_sub_sum (fun i => ((s.fwd i).length : Int)), ← hl]
    push_cast
    rw [sub_self, wrap64_zero]
  refine ⟨h0, ?_, hl, hc⟩
  have h1 := (count_eq_of_settled hi st).symm
  have h2 := (sum_eq_of_settled hi st).symm
  unfold checksPass
  rw [h0, ← h1, ← h2]
  simp

/-- C4: in every execution that reaches the end of the receive loop of `main`
having generated fewer than `2^63` values (the range of the `int64` counters;
every value costs a worker a sleep of 1 ms and the context is cancelled after
1 s), the sum of `amounts[0..N-1]` equals `inputCount`, so that the loop
`inputCount -= amounts[i]` leaves `0` and no check fails; each `amounts[i]`
equals the number of values worker `i` forwarded on `outs[i]`; and
`inputCount` is the number of calls of the callback. -/
theorem C4_per_worker_accounting (N : Nat) (s : State) (hr : Reachable N s)
    (he : s.main = .ended) (hsmall : s.sentIn.length < 9223372036854775808) :
    ∑ i in Finset.range N, s.amounts i = s.inputCount ∧
      subtractAmounts s.amounts s.inputCount N = 0 ∧ checksPass N s = true ∧
      (∀ i, i < N → s.amounts i = ((s.fwd i).length : Int)) ∧
      s.inputCount = (s.fnArgs.length : Int) := by
  have hi := inv_reachable hr
  have st := settled_of_ended hi he
  obtain ⟨h0, hp, hl, hc⟩ := accounting_wrapped hi st
  have ha := settled_amounts hi st
  have hs : s.fnArgs.length < 9223372036854775808 := by rw [st.fnArgsEq]; exact hsmall
  have hle : ∀ i, i < N → (s.fwd i).length ≤ s.fnArgs.length := by
    intro i hiN
    rw [← hl]
    exact Finset.single_le_sum (f := fun i => (s.fwd i).length) (fun _ _ => Nat.zero_le _)
      (Finset.mem_range.2 hiN)
  have ha' : ∀ i, i < N → s.amounts i = ((s.fwd i).length : Int) := by
    intro i hiN
    rw [ha i hiN]
    have := hle i hiN
    apply wrap64_of_small <;> omega
  have hc' : s.inputCount = (s.fnArgs.length : Int) := by
    rw [hc]
    apply wrap64_of_small <;> omega
  refine ⟨?_, h0, hp, ha', hc'⟩
  rw [hc', ← hl]
  push_cast
  exact Finset.sum_congr rfl (fun i hiR => ha' i (Finset.mem_range.1 hiR))

theorem C4_per_worker_accounting_witness :
    (exec NumOut fullRun).main = .ended ∧ (exec NumOut fullRun).fwd 7 = [1, 4] ∧
      (exec NumOut fullRun).inputCount = 4 ∧
      ∑ i in Finset.range NumOut, (exec NumOut fullRun).amounts i
        = (exec NumOut fullRun).inputCount ∧
      (exec NumOut fullRun).amounts 7 = (((exec NumOut fullRun).fwd 7).length : Int) :=
  have h := C4_per_worker_accounting NumOut (exec NumOut fullRun)
    (reachable_exec NumOut fullRun) (by decide) (by decide)
  ⟨by decide, by decide, by decide, h.1, h.2.2.2.1 7 (by decide)⟩

/-! ## Closing of the merged channel, order per worker -/

theorem sum_wgHeld_done {N : Nat} {s : State} (h : ∀ i, i < N → s.drain i = .done) :
    ∑ i in Finset.range N, wgHeld (s.drain i) = 0 := by
  apply Finset.sum_eq_zero
  intro i hiR
  rw [h i (Finset.mem_range.1 hiR)]
  rfl

/-- C7: in every reachable state no panic has happened; if `chOut` is closed
then the WaitGroup counter is 0, the closer has returned, and every drain
goroutine has returned, its `outs[i]` closed and its worker finished, so
nothing can send on `chOut` any more; and no enabled step panics (no send on
a closed channel, no second close). -/
theorem C7_merged_channel_closed_late (N : Nat) (s : State) (hr : Reachable N s) :
    s.panicked = false ∧
      (s.chOutClosed = true →
        s.wg = 0 ∧ s.closer = .done ∧
          ∀ i, i < N → s.drain i = .done ∧ s.outClosed i = true ∧ s.worker i = .done) ∧
      (∀ a s', step N s a = some s' → s'.panicked = false) := by
  have hi := inv_reachable hr
  refine ⟨hi.noPanic, ?_, ?_⟩
  · intro hc
    have h2 : s.closer = .done := hi.outClosedIffCloser.1 hc
    have h3 : ∀ i, i < N → s.drain i = .done := hi.closerDone (Or.inr h2)
    have h4 : s.closer ≠ .notStarted := by rw [h2]; simp
    rw [hi.closerStarted] at h4
    have h5 : wgAhead s.main = 0 := by rcases h4 with h4 | h4 <;> rw [h4] <;> rfl
    refine ⟨?_, h2, ?_⟩
    · rw [hi.wgEq, h5, sum_wgHeld_done h3]
    · intro i hiN
      have h6 := hi.drainClosing i (Or.inr (h3 i hiN))
      exact ⟨h3 i hiN, h6, (hi.outClosedIff i).1 h6⟩
  · intro a s' hs
    exact (inv_step hi hs).noPanic

theorem C7_merged_channel_closed_late_witness :
    (exec NumOut fullRun).chOutClosed = true ∧ (exec NumOut fullRun).wg = 0 ∧
      (exec NumOut fullRun).panicked = false :=
  have h := C7_merged_channel_closed_late NumOut (exec NumOut fullRun)
    (reachable_exec NumOut fullRun)
  ⟨by decide, (h.2.1 (by decide)).1, h.1⟩

/-- Order in `int64`: in every reachable state the values worker `i` has sent
on `outs[i]` are a subsequence, in generation order, of the values the
generator has sent, the values drain `i` has relayed are an initial part of
them, and the generator's values are `genSeq`. -/
theorem order_wrapped {N : Nat} {s : State} (hi : Inv N s) (i : Nat) :
    List.Sublist (s.fwd i) s.sentIn ∧ s.relayed i <+: s.fwd i ∧
      s.sentIn = genSeq s.sentIn.length := by
  have h1 : List.Sublist (s.fwd i) s.sentIn := by
    have h2 := hi.gotSublist i
    rw [hi.gotFwd i] at h2
    exact (List.sublist_append_left _ _).trans h2
  have h3 : s.relayed i <+: s.fwd i := by
    rw [hi.fwdRelayed i]
    exact List.prefix_append _ _
  exact ⟨h1, h3, hi.genSent⟩

/-- C9: for every worker index `i` and every reachable state in which the
generator has sent fewer than `2^63` values (the range of its `int64`
variable `n`; every value costs a worker a sleep of 1 ms and the context is
cancelled after 1 s), the values sent on `outs[i]` are strictly increasing,
and so are the values drain `i` has relayed to `chOut`; the generator's
sequence is `1, 2, 3, ...`, the values sent on `outs[i]` are a subsequence of
it in generation order, and the values relayed are an initial part of them. -/
theorem C9_order_per_worker (N : Nat) (s : State) (i : Nat) (hr : Reachable N s)
    (hsmall : s.sentIn.length < 9223372036854775808) :
    List.Sorted (· < ·) (s.fwd i) ∧ List.Sorted (· < ·) (s.relayed i) ∧
      s.sentIn = countUp s.sentIn.length ∧ List.Sublist (s.fwd i) s.sentIn ∧
      s.relayed i <+: s.fwd i := by
  have hi := inv_reachable hr
  obtain ⟨h1, h3, hg⟩ := order_wrapped hi i
  have h4 : s.sentIn = countUp s.sentIn.length := by
    rw [← genSeq_small _ hsmall]
    exact hg
  have h5 : List.Sorted (· < ·) s.sentIn := by
    rw [h4]
    exact countUp_sorted _
  have h6 : List.Sorted (· < ·) (s.fwd i) := List.Pairwise.sublist h1 h5
  exact ⟨h6, List.Pairwise.sublist h3.sublist h6, h4, h1, h3⟩

theorem C9_order_per_worker_witness :
    (exec NumOut fullRun).sentIn = [1, 2, 3, 4] ∧ (exec NumOut fullRun).fwd 7 = [1, 4] ∧
      List.Sorted (· < ·) ((exec NumOut fullRun).fwd 7) :=
  ⟨by decide, by decide,
    (C9_order_per_worker NumOut (exec NumOut fullRun) 7 (reachable_exec NumOut fullRun)
      (by decide)).1⟩

/-! ## The shutdown cascade terminates -/

theorem next_step {N : Nat} {s s' : State} {a : Action} (hp : s.panicked = false)
    (hn : Next N s a s') : step N s a = some s' := by
  unfold step
  rw [if_neg (by simp [hp])]
  cases hn <;> simp_all [Generator.step, Worker.step, Worker.entry]

theorem next_chInClosed {N : Nat} {s s' : State} {a : Action} (hc : s.chInClosed = true)
    (hn : Next N s a s') : s'.chInClosed = true := by
  cases hn <;> first | exact hc | rfl

theorem sumW_update {N : Nat} (w : Nat → WorkerPc) (j : Nat) (x : WorkerPc) (h : j < N) :
    ∑ i in Finset.range N, workerWeight (Function.update w j x i) + workerWeight (w j)
      = ∑ i in Finset.range N, workerWeight (w i) + workerWeight x := by
  rw [sum_update_comp workerWeight]
  exact sum_update_add (fun i => workerWeight (w i)) h (workerWeight x)

theorem sumD_update {N : Nat} (d : Nat → DrainPc) (j : Nat) (x : DrainPc) (h : j < N) :
    ∑ i in Finset.range N, drainWeight (Function.update d j x i) + drainWeight (d j)
      = ∑ i in Finset.range N, drainWeight (d i) + drainWeight x := by
  rw [sum_update_comp drainWeight]
  exact sum_update_add (fun i => drainWeight (d i)) h (drainWeight x)

theorem workerWeight_vals (v : Int) :
    workerWeight .notStarted = 2 ∧ workerWeight .recv = 2 ∧ workerWeight (.send v) = 7 ∧
      workerWeight .sleep = 3 ∧ workerWeight .closeOut = 1 ∧ workerWeight .done = 0 :=
  ⟨rfl, rfl, rfl, rfl, rfl, rfl⟩

theorem drainWeight_vals (v : Int) :
    drainWeight .notStarted = 2 ∧ drainWeight .recv = 2 ∧ drainWeight (.sendOut v) = 5 ∧
      drainWeight .incAmount = 3 ∧ drainWeight .wgDone = 1 ∧ drainWeight .done = 0 :=
  ⟨rfl, rfl, rfl, rfl, rfl, rfl⟩

theorem mainWeight_nextDrain (N j : Nat) (h : j < N) :
    mainWeight N (nextDrain N (j + 1)) < mainWeight N (.goDrain j) := by
  rcases nextDrain_cases N (j + 1) with ⟨h3, h4⟩ | ⟨h3, h4⟩ <;> rw [h4] <;>
    simp only [mainWeight] <;> omega

theorem mainWeight_nextWorker (N j : Nat) (h : j < N) :
    mainWeight N (nextWorker N (j + 1)) < mainWeight N (.goWorker j) := by
  rcases nextWorker_cases N (j + 1) with ⟨h3, h4⟩ | ⟨h3, h4⟩ <;> rw [h4]
  · simp only [mainWeight]; omega
  · rcases nextDrain_cases N 0 with ⟨h5, h6⟩ | ⟨h5, h6⟩ <;> rw [h6] <;>
      simp only [mainWeight] <;> omega

theorem mainWeight_first (N : Nat) : mainWeight N (nextWorker N 0) < mainWeight N .goGen := by
  rcases nextWorker_cases N 0 with ⟨h3, h4⟩ | ⟨h3, h4⟩ <;> rw [h4]
  · simp only [mainWeight]; omega
  · rcases nextDrain_cases N 0 with ⟨h5, h6⟩ | ⟨h5, h6⟩ <;> rw [h6] <;>
      simp only [mainWeight] <;> omega

theorem next_stepsLeft {N : Nat} {s s' : State} {a : Action} (hi : Inv N s)
    (hc : s.chInClosed = true) (hn : Next N s a s') : stepsLeft N s' < stepsLeft N s := by
  have hdone : s.gen.pc = .done := hi.inClosed.1 hc
  have hcan : s.cancelled = true := hi.genCancelled (Or.inr hdone)
  have hmb := hi.mainBound
  obtain ⟨w1, w2, w3, w4, w5, w6⟩ := workerWeight_vals 0
  obtain ⟨d1, d2, d3, d4, d5, d6⟩ := drainWeight_vals 0
  cases hn <;> unfold stepsLeft <;> dsimp only
  case cancel h => rw [hcan] at h; cases h
  case goGen hm => have := mainWeight_first N; rw [hm]; omega
  case goWorker j hm =>
    have hj := hmb j (Or.inl hm)
    have h1 := mainWeight_nextWorker N j hj
    have h2 := sumW_update s.worker j .recv hj
    have h3 := hi.workerStarted j
    rw [hm] at h3
    simp [spawnedWorkers] at h3
    rw [h3] at h2
    rw [hm]
    omega
  case wgAdd j hm =>
    rw [hm]
    simp only [mainWeight]
    omega
  case goDrain j hm =>
    have hj := hmb j (Or.inr (Or.inr hm))
    have h1 := mainWeight_nextDrain N j hj
    have h2 := sumD_update s.drain j .recv hj
    have h3 := hi.drainStarted j
    rw [hm] at h3
    simp [spawnedDrains] at h3
    rw [h3] at h2
    rw [hm]
    omega
  case goCloser hm =>
    have h3 := hi.closerStarted
    rw [hm] at h3
    simp at h3
    rw [hm, h3]
    simp only [mainWeight, closerWeight]
    omega
  case genSend i v hg hv hw hcc => rw [hdone] at hg; cases hg
  case genCtxDone h hg => rw [hdone] at hg; cases hg
  case fnAddSum hg hf => rw [hdone] at hg; cases hg
  case fnAddCount hf hg => rw [hdone] at hg; cases hg
  case genClose hg hcc => rw [hdone] at hg; cases hg
  case workerInClosed j hcc hw =>
    have hj : j < N := worker_started_lt hi j (by rw [hw]; simp)
    have h2 := sumW_update s.worker j .closeOut hj
    rw [hw] at h2
    omega
  case workerSend j v hw hd hcc =>
    have hj : j < N := worker_started_lt hi j (by rw [hw]; simp)
    have h2 := sumW_update s.worker j .sleep hj
    have h3 := sumD_update s.drain j (.sendOut v) hj
    have e1 : workerWeight (.send v) = 7 := rfl
    have e2 : drainWeight (.sendOut v) = 5 := rfl
    rw [hw] at h2
    rw [hd] at h3
    omega
  case workerSlept j hw =>
    have hj : j < N := worker_started_lt hi j (by rw [hw]; simp)
    have h2 := sumW_update s.worker j .recv hj
    rw [hw] at h2
    omega
  case workerClose j hw hcc =>
    have hj : j < N := worker_started_lt hi j (by rw [hw]; simp)
    have h2 := sumW_update s.worker j .done hj
    rw [hw] at h2
    omega
  case drainInClosed j hd hcc =>
    have hj : j < N := drain_started_lt hi j (by rw [hd]; simp)
    have h3 := sumD_update s.drain j .wgDone hj
    rw [hd] at h3
    omega
  case drainSend j v hd hcc hl =>
    have hj : j < N := drain_started_lt hi j (by rw [hd]; simp)
    have h3 := sumD_update s.drain j .incAmount hj
    have e2 : drainWeight (.sendOut v) = 5 := rfl
    rw [hd] at h3
    simp only [List.length_append, List.length_singleton]
    omega
  case drainInc j hd =>
    have hj : j < N := drain_started_lt hi j (by rw [hd]; simp)
    have h3 := sumD_update s.drain j .recv hj
    rw [hd] at h3
    omega
  case drainWgDone j hd hw =>
    have hj : j < N := drain_started_lt hi j (by rw [hd]; simp)
    have h3 := sumD_update s.drain j .done hj
    rw [hd] at h3
    omega
  case closerWait h hw => rw [h]; simp only [closerWeight]; omega
  case closerClose h ho => rw [h]; simp only [closerWeight]; omega
  case mainRecv v hm hh =>
    cases hco : s.chOut with
    | nil => rw [hco] at hh; simp at hh
    | cons x rest => simp
  case mainEnd hm he h => rw [hm]; simp only [mainWeight]; omega

/-! ## The shutdown cascade makes progress -/

theorem progress {N : Nat} {s : State} (hi : Inv N s) (hc : s.chInClosed = true)
    (hne : s.main ≠ .ended) : ∃ a s', Next N s a s' := by
  cases hm : s.main with
  | goGen => exact ⟨_, _, Next.goGen hm⟩
  | goWorker j => exact ⟨_, _, Next.goWorker j hm⟩
  | wgAdd j => exact ⟨_, _, Next.wgAdd j hm⟩
  | goDrain j => exact ⟨_, _, Next.goDrain j hm⟩
  | goCloser => exact ⟨_, _, Next.goCloser hm⟩
  | ended => exact absurd hm hne
  | recv =>
    cases hco : s.chOut with
    | cons x rest => exact ⟨_, _, Next.mainRecv x hm (by rw [hco]; rfl)⟩
    | nil =>
      cases hcc : s.chOutClosed with
      | true => exact ⟨_, _, Next.mainEnd hm hco hcc⟩
      | false =>
        have hcs : s.closer ≠ .notStarted := hi.closerStarted.2 (Or.inl hm)
        have hnd : s.closer ≠ .done := by
          intro h
          have := hi.outClosedIffCloser.2 h
          rw [hcc] at this
          cases this
        cases hcl : s.closer with
        | notStarted => exact absurd hcl hcs
        | done => exact absurd hcl hnd
        | close => exact ⟨_, _, Next.closerClose hcl hcc⟩
        | wait =>
          rcases Nat.eq_zero_or_pos s.wg with hw | hw
          · exact ⟨_, _, Next.closerWait hcl hw⟩
          · have h1 := hi.wgEq
            have h2 : wgAhead s.main = 0 := by rw [hm]; rfl
            have h3 : 0 < ∑ i in Finset.range N, wgHeld (s.drain i) := by omega
            obtain ⟨i, hiR, h4⟩ := Finset.exists_ne_zero_of_sum_ne_zero (Nat.pos_iff_ne_zero.1 h3)
            have hiN := Finset.mem_range.1 hiR
            have hws : s.worker i ≠ .notStarted := by
              rw [hi.workerStarted i, hm]
              exact hiN
            cases hd : s.drain i with
            | notStarted => rw [hd] at h4; exact absurd rfl h4
            | done => rw [hd] at h4; exact absurd rfl h4
            | wgDone =>
              exact ⟨_, _, Next.drainWgDone i hd (Nat.pos_iff_ne_zero.1 hw)⟩
            | incAmount => exact ⟨_, _, Next.drainInc i hd⟩
            | sendOut v =>
              exact ⟨_, _, Next.drainSend i v hd hcc (by rw [hco]; exact Nat.lt_of_le_of_lt (Nat.zero_le i) hiN)⟩
            | recv =>
              cases hwk : s.worker i with
              | notStarted => exact absurd hwk hws
              | recv => exact ⟨_, _, Next.workerInClosed i hc hwk⟩
              | sleep => exact ⟨_, _, Next.workerSlept i hwk⟩
              | send v =>
                have hoc : s.outClosed i = false := by
                  cases h : s.outClosed i
                  · rfl
                  · have := (hi.outClosedIff i).1 h
                    rw [hwk] at this
                    cases this
                exact ⟨_, _, Next.workerSend i v hwk hd hoc⟩
              | closeOut =>
                have hoc : s.outClosed i = false := by
                  cases h : s.outClosed i
                  · rfl
                  · have := (hi.outClosedIff i).1 h
                    rw [hwk] at this
                    cases this
                exact ⟨_, _, Next.workerClose i hwk hoc⟩
              | done =>
                exact ⟨_, _, Next.drainInClosed i hd ((hi.outClosedIff i).2 hwk)⟩

theorem run_chInClosed {N : Nat} (as : List Action) : ∀ (s s' : State), Inv N s →
    s.chInClosed = true → run N s as = some s' →
      Inv N s' ∧ s'.chInClosed = true ∧ stepsLeft N s' + as.length ≤ stepsLeft N s := by
  induction as with
  | nil =>
    intro s s' hi hc h
    simp [run] at h
    subst h
    exact ⟨hi, hc, by simp⟩
  | cons a as ih =>
    intro s s' hi hc h
    simp only [run] at h
    cases hs : step N s a with
    | none => rw [hs] at h; simp at h
    | some t =>
      rw [hs] at h
      have hn := step_next hi hs
      have h1 := next_stepsLeft hi hc hn
      obtain ⟨h2, h3, h4⟩ := ih t s' (next_inv hi hn) (next_chInClosed hc hn) h
      refine ⟨h2, h3, ?_⟩
      simp only [List.length_cons]
      omega

theorem run_to_end {N : Nat} : ∀ (n : Nat) (s : State), stepsLeft N s ≤ n → Inv N s →
    s.chInClosed = true → ∃ as s', run N s as = some s' ∧ s'.main = .ended := by
  intro n
  induction n with
  | zero =>
    intro s hn hi hc
    by_cases he : s.main = .ended
    · exact ⟨[], s, rfl, he⟩
    · obtain ⟨a, t, hnx⟩ := progress hi hc he
      have := next_stepsLeft hi hc hnx
      omega
  | succ n ih =>
    intro s hn hi hc
    by_cases he : s.main = .ended
    · exact ⟨[], s, rfl, he⟩
    · obtain ⟨a, t, hnx⟩ := progress hi hc he
      have h1 := next_stepsLeft hi hc hnx
      obtain ⟨as, s', h2, h3⟩ := ih t (by omega) (next_inv hi hnx) (next_chInClosed hc hnx)
      refine ⟨a :: as, s', ?_, h3⟩
      simp only [run]
      rw [next_step hi.noPanic hnx]
      exact h2

theorem stepsLeft_ended {N : Nat} {s : State} (hi : Inv N s) (he : s.main = .ended) :
    stepsLeft N s = 0 := by
  have st := settled_of_ended hi he
  have h1 : ∑ i in Finset.range N, workerWeight (s.worker i) = 0 := by
    apply Finset.sum_eq_zero
    intro i hiR
    rw [st.workerDone i (Finset.mem_range.1 hiR)]
    rfl
  have h2 : ∑ i in Finset.range N, drainWeight (s.drain i) = 0 := by
    apply Finset.sum_eq_zero
    intro i hiR
    rw [st.drainDone i (Finset.mem_range.1 hiR)]
    rfl
  unfold stepsLeft
  rw [h1, h2, he, st.closerDone, st.chOutEmpty]
  rfl

/-- C10: in every reachable state in which `chIn` is closed,
(1) if the receive loop of `main` has not ended, some step is enabled;
(2) every execution from the state has at most `stepsLeft` steps, so none is
infinite;
(3) an execution from the state that stops where no step is enabled has ended
the receive loop of `main`, with `chOut` closed and empty and every `outs[i]`
closed, and without a panic;
(4) some execution from the state does end so;
(5) and once the receive loop of `main` has ended no step is enabled. -/
theorem C10_shutdown_cascade (N : Nat) (s : State) (hr : Reachable N s)
    (hc : s.chInClosed = true) :
    (s.main ≠ .ended → ∃ a s', step N s a = some s') ∧
      (∀ as s', run N s as = some s' → as.length ≤ stepsLeft N s) ∧
      (∀ as s', run N s as = some s' → (∀ a, step N s' a = none) →
        s'.main = .ended ∧ s'.chOutClosed = true ∧ s'.chOut = [] ∧
          (∀ i, i < N → s'.outClosed i = true) ∧ s'.panicked = false) ∧
      (∃ as s', run N s as = some s' ∧ s'.main = .ended ∧ s'.chOutClosed = true ∧
        s'.chOut = [] ∧ (∀ i, i < N → s'.outClosed i = true) ∧ s'.panicked = false) ∧
      (s.main = .ended → ∀ a, step N s a = none) := by
  have hi := inv_reachable hr
  refine ⟨?_, ?_, ?_, ?_, ?_⟩
  · intro hne
    obtain ⟨a, t, hn⟩ := progress hi hc hne
    exact ⟨a, t, next_step hi.noPanic hn⟩
  · intro as s' h
    have := (run_chInClosed as s s' hi hc h).2.2
    omega
  · intro as s' h hstuck
    obtain ⟨hi', hc', _⟩ := run_chInClosed as s s' hi hc h
    have he : s'.main = .ended := by
      by_contra hne
      obtain ⟨a, t, hn⟩ := progress hi' hc' hne
      have := next_step hi'.noPanic hn
      rw [hstuck a] at this
      cases this
    have st := settled_of_ended hi' he
    exact ⟨he, st.chOutClosed, st.chOutEmpty, st.outsClosed, hi'.noPanic⟩
  · obtain ⟨as, s', h1, h2⟩ := run_to_end (stepsLeft N s) s (Nat.le_refl _) hi hc
    obtain ⟨hi', _, _⟩ := run_chInClosed as s s' hi hc h1
    have st := settled_of_ended hi' h2
    exact ⟨as, s', h1, h2, st.chOutClosed, st.chOutEmpty, st.outsClosed, hi'.noPanic⟩
  · intro he a
    cases hs : step N s a with
    | none => rfl
    | some t =>
      have h1 := next_stepsLeft hi hc (step_next hi hs)
      rw [stepsLeft_ended hi he] at h1
      exact absurd h1 (Nat.not_lt_zero _)

theorem C10_shutdown_cascade_witness :
    (exec NumOut closingRun).chInClosed = true ∧ (exec NumOut closingRun).main = .recv ∧
      ∃ a s', step NumOut (exec NumOut closingRun) a = some s' :=
  ⟨by decide, by decide,
    (C10_shutdown_cascade NumOut (exec NumOut closingRun) (reachable_exec NumOut closingRun)
      (by decide)).1 (by decide)⟩

/-! ## Runs of `Generator` -/

theorem genTrace_run (k : Nat) :
    Generator.run Generator.entry (genTrace k) = some { pc := .done, n := genValue k } := by
  have := genLoop_run k 0
  rw [Nat.zero_add] at this
  exact this

theorem genTrace_sends (k : Nat) : GenEv.sends (genTrace k) = genSeq k := by
  rw [genSeq_eq_range']
  exact genLoop_sends k 0

theorem genTrace_calls (k : Nat) : GenEv.calls (genTrace k) = genSeq k := by
  rw [genSeq_eq_range']
  exact genLoop_calls k 0

theorem genLoop_getLast (k : Nat) : ∀ j, (genLoop j k).getLast? = some GenEv.close := by
  induction k with
  | zero => intro j; rfl
  | succ k ih =>
    intro j
    have h := ih (j + 1)
    cases hl : genLoop (j + 1) k with
    | nil => rw [hl] at h; simp at h
    | cons x xs =>
      rw [hl] at h
      simp only [genLoop, hl]
      simpa [List.getLast?_cons_cons] using h

/-- Runs of `Generator` in `int64`: a run to its end is `genTrace k`, with `k`
the number of its sends; the values sent and the arguments of `fn` are
`genSeq k`; `close(ch)` occurs once, as the last event. -/
theorem generator_run_wrapped (evs : List GenEv) (g : GenState)
    (h : Generator.run Generator.entry evs = some g) (hd : g.pc = .done) :
    evs = genTrace (GenEv.sends evs).length ∧
      GenEv.sends evs = genSeq (GenEv.sends evs).length ∧
      GenEv.calls evs = GenEv.sends evs ∧
      GenEv.closes evs = 1 ∧ evs.getLast? = some GenEv.close := by
  have h1 : evs = genTrace (GenEv.sends evs).length := (gen_run_shape evs).1 0 g h hd
  have h2 : GenEv.sends evs = genSeq (GenEv.sends evs).length := by
    conv_lhs => rw [h1]
    exact genTrace_sends _
  have h3 : GenEv.calls evs = GenEv.sends evs := by
    rw [h2]
    conv_lhs => rw [h1]
    exact genTrace_calls _
  refine ⟨h1, h2, h3, ?_, ?_⟩
  · rw [h1]; exact genLoop_closes _ 0
  · rw [h1]; exact genLoop_getLast _ 0

/-- C5: for every run of `Generator` to its end with `k` sends, `k < 2^63` (the
range of its `int64` variable `n`, reached only after `2^63` completed sends),
the values sent on `ch` are `1, 2, ..., k` in that order; the arguments of the
calls of `fn` are the same `1, 2, ..., k`; the run is exactly `k` rounds of a
send followed by the call of `fn` with the value sent, then the cancellation
branch and `close(ch)`, which occurs once and is the last event, after the
last call of `fn`.  For every `k` such a run exists. -/
theorem C5_generator_emits (evs : List GenEv) (g : GenState)
    (h : Generator.run Generator.entry evs = some g) (hd : g.pc = .done)
    (hk : (GenEv.sends evs).length < 9223372036854775808) :
    GenEv.sends evs = countUp (GenEv.sends evs).length ∧
      GenEv.calls evs = countUp (GenEv.sends evs).length ∧
      evs = genTrace (GenEv.sends evs).length ∧
      GenEv.closes evs = 1 ∧ evs.getLast? = some GenEv.close ∧
      ∀ k, Generator.run Generator.entry (genTrace k) = some { pc := .done, n := genValue k } ∧
        (GenEv.sends (genTrace k)).length = k := by
  obtain ⟨h1, h2, h3, h4, h5⟩ := generator_run_wrapped evs g h hd
  have h6 : GenEv.sends evs = countUp (GenEv.sends evs).length := by
    rw [← genSeq_small _ hk]
    exact h2
  refine ⟨h6, ?_, h1, h4, h5, ?_⟩
  · rw [h3]; exact h6
  · intro k
    exact ⟨genTrace_run k, by rw [genTrace_sends, genSeq_length]⟩

theorem C5_generator_emits_witness :
    Generator.run Generator.entry (genTrace 3) = some { pc := .done, n := 4 } ∧
      GenEv.sends (genTrace 3) = [1, 2, 3] ∧ GenEv.calls (genTrace 3) = [1, 2, 3] ∧
      GenEv.sends (genTrace 3) = countUp (GenEv.sends (genTrace 3)).length :=
  ⟨by decide, by decide, by decide,
    (C5_generator_emits (genTrace 3) { pc := .done, n := 4 } (by decide) rfl (by decide)).1⟩

/-! ## Runs of `Generator` past the `int64` range -/

theorem genSeq_getElem? (k i : Nat) (h : i < k) : (genSeq k)[i]? = some (genValue i) := by
  unfold genSeq
  rw [List.getElem?_map, List.getElem?_range h]
  rfl

theorem countUp_getElem? (k i : Nat) (h : i < k) : (countUp k)[i]? = some ((i : Int) + 1) := by
  unfold countUp
  rw [List.getElem?_map, List.getElem?_range h]
  rfl

theorem genValue_wrapped :
    genValue 9223372036854775807 = -9223372036854775808 := by
  rw [genValue_eq]
  unfold wrap64
  norm_num

theorem genSeq_ne_countUp : genSeq 9223372036854775808 ≠ countUp 9223372036854775808 := by
  intro h
  have h1 := congrArg (fun l : List Int => l[9223372036854775807]?) h
  simp only at h1
  rw [genSeq_getElem? _ _ (by norm_num), countUp_getElem? _ _ (by norm_num),
    genValue_wrapped] at h1
  norm_num at h1

/-- Past the `int64` range: the run of `Generator` with `2^63` sends, taken
without regard to the time it needs, sends `-2^63` as its last value, so the
values sent are not `1, 2, ..., 2^63`. -/
theorem genTrace_past_int64 :
    Generator.run Generator.entry (genTrace 9223372036854775808)
        = some { pc := .done, n := genValue 9223372036854775808 } ∧
      (GenEv.sends (genTrace 9223372036854775808)).length = 9223372036854775808 ∧
      GenEv.sends (genTrace 9223372036854775808) ≠ countUp 9223372036854775808 := by
  refine ⟨genTrace_run _, ?_, ?_⟩
  · rw [genTrace_sends, genSeq_length]
  · rw [genTrace_sends]
    exact genSeq_ne_countUp

/-! ## Runs of `Worker`; cancellation is kept -/

theorem worker_run_shape (evs : List WorkerEv) :
    (Worker.run .recv evs = some .done → evs = workerTrace (WorkerEv.received evs)) ∧
    (∀ v, Worker.run (.send v) evs = some .done →
        ∃ rest, evs = WorkerEv.sendOut v :: WorkerEv.slept :: rest ∧
          rest = workerTrace (WorkerEv.received rest)) ∧
    (Worker.run .sleep evs = some .done →
        ∃ rest, evs = WorkerEv.slept :: rest ∧ rest = workerTrace (WorkerEv.received rest)) ∧
    (Worker.run .closeOut evs = some .done → evs = [WorkerEv.closeOut]) ∧
    (Worker.run .done evs = some .done → evs = []) ∧
    (Worker.run .notStarted evs = some .done → False) := by
  induction evs with
  | nil => simp [Worker.run]
  | cons e es ih =>
    obtain ⟨ihR, ihS, ihSl, ihC, ihD, ihN⟩ := ih
    refine ⟨?_, ?_, ?_, ?_, ?_, ?_⟩
    · intro h
      cases e <;> simp [Worker.run, Worker.step] at h
      case recvIn v =>
        obtain ⟨rest, h1, h2⟩ := ihS v h
        subst h1
        simp only [WorkerEv.received, workerTrace] at h2 ⊢
        rw [← h2]
      case inClosed =>
        have := ihC h
        subst this
        rfl
    · intro v h
      cases e
      case sendOut w =>
        by_cases hvw : v = w
        · subst hvw
          simp [Worker.run, Worker.step] at h
          obtain ⟨rest, h1, h2⟩ := ihSl h
          subst h1
          exact ⟨rest, rfl, h2⟩
        · simp [Worker.run, Worker.step, hvw] at h
      all_goals simp [Worker.run, Worker.step] at h
    · intro h
      cases e <;> simp [Worker.run, Worker.step] at h
      case slept => exact ⟨es, rfl, ihR h⟩
    · intro h
      cases e <;> simp [Worker.run, Worker.step] at h
      case closeOut =>
        have := ihD h
        subst this
        rfl
    · intro h
      cases e <;> simp [Worker.run, Worker.step] at h
    · intro h
      cases e <;> simp [Worker.run, Worker.step] at h

theorem workerTrace_run (xs : List Int) : Worker.run Worker.entry (workerTrace xs) = some .done := by
  induction xs with
  | nil => simp [workerTrace, Worker.run, Worker.step, Worker.entry]
  | cons v xs ih =>
    simp only [workerTrace, Worker.run, Worker.step, Worker.entry] at ih ⊢
    simpa using ih

theorem workerTrace_received (xs : List Int) : WorkerEv.received (workerTrace xs) = xs := by
  induction xs with
  | nil => rfl
  | cons v xs ih => simp [workerTrace, WorkerEv.received, ih]

theorem workerTrace_sent (xs : List Int) : WorkerEv.sent (workerTrace xs) = xs := by
  induction xs with
  | nil => rfl
  | cons v xs ih => simp [workerTrace, WorkerEv.sent, ih]

theorem workerTrace_closeOut (xs : List Int) :
    (workerTrace xs).count WorkerEv.closeOut = 1 ∧ WorkerEv.closeIn ∉ workerTrace xs := by
  induction xs with
  | nil => simp [workerTrace]
  | cons v xs ih => simpa [workerTrace] using ih

theorem workerTrace_tail (xs : List Int) :
    ∃ pre, workerTrace xs = pre ++ [WorkerEv.inClosed, WorkerEv.closeOut] ∧
      WorkerEv.sent pre = xs ∧ WorkerEv.closeOut ∉ pre := by
  induction xs with
  | nil => exact ⟨[], rfl, rfl, by simp⟩
  | cons v xs ih =>
    obtain ⟨pre, h1, h2, h3⟩ := ih
    refine ⟨WorkerEv.recvIn v :: WorkerEv.sendOut v :: WorkerEv.slept :: pre, ?_, ?_, ?_⟩
    · simp [workerTrace, h1]
    · simp [WorkerEv.sent, h2]
    · simpa using h3

/-- C6: a run of `Worker` to its end, in which it receives the values `xs` from
`in`, is exactly: for each value of `xs` in turn a receive, a send of that
value on `out` and a sleep, then the receive that finds `in` closed and
`close(out)`.  So the values sent on `out` are `xs` in order, `out` is closed
once, after `in` was found closed and after every send, and `in` is never
closed by the worker.  For every `xs` this run exists. -/
theorem C6_worker_relay (evs : List WorkerEv)
    (h : Worker.run Worker.entry evs = some .done) :
    evs = workerTrace (WorkerEv.received evs) ∧
      WorkerEv.sent evs = WorkerEv.received evs ∧
      evs.count WorkerEv.closeOut = 1 ∧ WorkerEv.closeIn ∉ evs ∧
      (∃ pre, evs = pre ++ [WorkerEv.inClosed, WorkerEv.closeOut] ∧
        WorkerEv.sent pre = WorkerEv.received evs ∧ WorkerEv.closeOut ∉ pre) ∧
      ∀ xs, Worker.run Worker.entry (workerTrace xs) = some .done ∧
        WorkerEv.received (workerTrace xs) = xs := by
  have h1 : evs = workerTrace (WorkerEv.received evs) := (worker_run_shape evs).1 h
  refine ⟨h1, ?_, ?_, ?_, ?_, fun xs => ⟨workerTrace_run xs, workerTrace_received xs⟩⟩
  · conv_lhs => rw [h1]
    exact workerTrace_sent _
  · rw [h1]; exact (workerTrace_closeOut _).1
  · rw [h1]; exact (workerTrace_closeOut _).2
  · obtain ⟨pre, h2, h3, h4⟩ := workerTrace_tail (WorkerEv.received evs)
    exact ⟨pre, h1.trans h2, h3, h4⟩

theorem C6_worker_relay_witness :
    Worker.run Worker.entry (workerTrace [5, -2, 5]) = some .done ∧
      WorkerEv.received (workerTrace [5, -2, 5]) = [5, -2, 5] ∧
      WorkerEv.sent (workerTrace [5, -2, 5]) = WorkerEv.received (workerTrace [5, -2, 5]) :=
  ⟨by decide, by decide, (C6_worker_relay (workerTrace [5, -2, 5]) (by decide)).2.1⟩

theorem next_cancelled {N : Nat} {s s' : State} {a : Action} (hc : s.cancelled = true)
    (hn : Next N s a s') : s'.cancelled = true := by
  cases hn <;> first | exact hc | rfl

theorem run_cancelled {N : Nat} (as : List Action) : ∀ (s s' : State), Inv N s →
    s.cancelled = true → run N s as = some s' → Inv N s' ∧ s'.cancelled = true := by
  induction as with
  | nil =>
    intro s s' hi hc h
    simp [run] at h
    subst h
    exact ⟨hi, hc⟩
  | cons a as ih =>
    intro s s' hi hc h
    simp only [run] at h
    cases hs : step N s a with
    | none => rw [hs] at h; simp at h
    | some t =>
      rw [hs] at h
      have hn := step_next hi hs
      exact ih t s' (next_inv hi hn) (next_cancelled hc hn) h

/-! ## Long runs through worker 0 -/

theorem run_append (N : Nat) (as bs : List Action) : ∀ s : State,
    run N s (as ++ bs) = (run N s as).bind (fun t => run N t bs) := by
  induction as with
  | nil => intro s; rfl
  | cons a as ih =>
    intro s
    simp only [List.cons_append, run]
    cases step N s a with
    | none => rfl
    | some t => simp [ih t]

theorem run_append_of {N : Nat} {as bs : List Action} {s t u : State}
    (h1 : run N s as = some t) (h2 : run N t bs = some u) : run N s (as ++ bs) = some u := by
  rw [run_append, h1]
  exact h2

theorem goGen_run (N : Nat) (c : Bool) :
    ∃ s', run N { init with cancelled := c } [.goGen] = some s' ∧ Spawned N 0 0 s' ∧
      s'.main = nextWorker N 0 ∧ s'.cancelled = c := by
  simp [run, step, init]
  constructor <;> simp

theorem goWorker_run (N j : Nat) (s : State) (h : Spawned N j 0 s)
    (hm : s.main = nextWorker N j) (hj : j < N) :
    ∃ s', run N s [.goWorker j] = some s' ∧ Spawned N (j + 1) 0 s' ∧
      s'.main = nextWorker N (j + 1) ∧ s'.cancelled = s.cancelled := by
  obtain ⟨h1, h2, h3, h4, h5, h6, h7, h8, h9, h10, h11, h12, h13⟩ := h
  have hm' : s.main = .goWorker j := by rw [hm, nextWorker, if_pos hj]
  simp [run, step, h1, hm']
  constructor <;> simp [h2, h3, h4, h6, h7, h8, h9, h10, h11, h12, h13]
  intro i hi
  simp only [Function.update_apply]
  split_ifs with hij
  · rfl
  · exact h5 i (by omega)

theorem goWorkers_run (N : Nat) (m : Nat) : ∀ (j : Nat) (s : State), j + m ≤ N →
    Spawned N j 0 s → s.main = nextWorker N j →
    ∃ s', run N s (goWorkers j m) = some s' ∧ Spawned N (j + m) 0 s' ∧
      s'.main = nextWorker N (j + m) ∧ s'.cancelled = s.cancelled := by
  induction m with
  | zero => intro j s _ h hm; exact ⟨s, rfl, h, hm, rfl⟩
  | succ m ih =>
    intro j s hle h hm
    obtain ⟨t, h1, h2, h3, h4⟩ := goWorker_run N j s h hm (by omega)
    obtain ⟨u, h5, h6, h7, h8⟩ := ih (j + 1) t (by omega) h2 h3
    have e : j + (m + 1) = j + 1 + m := by omega
    refine ⟨u, ?_, ?_, ?_, ?_⟩
    · have hrun := run_append_of h1 h5
      exact hrun
    · rw [e]; exact h6
    · rw [e]; exact h7
    · rw [h8, h4]

theorem goDrain_run (N j : Nat) (s : State) (h : Spawned N N j s)
    (hm : s.main = nextDrain N j) (hj : j < N) :
    ∃ s', run N s [.wgAdd j, .goDrain j] = some s' ∧ Spawned N N (j + 1) s' ∧
      s'.main = nextDrain N (j + 1) ∧ s'.cancelled = s.cancelled := by
  obtain ⟨h1, h2, h3, h4, h5, h6, h7, h8, h9, h10, h11, h12, h13⟩ := h
  have hm' : s.main = .wgAdd j := by rw [hm, nextDrain, if_pos hj]
  simp [run, step, h1, hm']
  constructor <;> simp [h2, h3, h4, h5, h6, h8, h9, h10, h11, h12, h13]
  · exact h5
  · intro i hi
    simp only [Function.update_apply]
    split_ifs with hij
    · rfl
    · exact h7 i (by omega)

theorem goDrains_run (N : Nat) (m : Nat) : ∀ (j : Nat) (s : State), j + m ≤ N →
    Spawned N N j s → s.main = nextDrain N j →
    ∃ s', run N s (goDrains j m) = some s' ∧ Spawned N N (j + m) s' ∧
      s'.main = nextDrain N (j + m) ∧ s'.cancelled = s.cancelled := by
  induction m with
  | zero => intro j s _ h hm; exact ⟨s, rfl, h, hm, rfl⟩
  | succ m ih =>
    intro j s hle h hm
    obtain ⟨t, h1, h2, h3, h4⟩ := goDrain_run N j s h hm (by omega)
    obtain ⟨u, h5, h6, h7, h8⟩ := ih (j + 1) t (by omega) h2 h3
    have e : j + (m + 1) = j + 1 + m := by omega
    refine ⟨u, ?_, ?_, ?_, ?_⟩
    · have hrun := run_append_of h1 h5
      exact hrun
    · rw [e]; exact h6
    · rw [e]; exact h7
    · rw [h8, h4]

theorem goCloser_run (N : Nat) (s : State) (h : Spawned N N N s)
    (hm : s.main = nextDrain N N) :
    ∃ s', run N s [.goCloser] = some s' ∧ AtHead N 0 s' ∧ s'.cancelled = s.cancelled := by
  obtain ⟨h1, h2, h3, h4, h5, h6, h7, h8, h9, h10, h11, h12, h13⟩ := h
  have hm' : s.main = .goCloser := by rw [hm, nextDrain, if_neg (Nat.lt_irrefl N)]
  simp [run, step, h1, hm']
  constructor <;> simp [h2, h3, h4, h6, h8, h9, h10, h11, h12, h13, genSeq]
  · rfl
  · exact h5
  · exact h7

theorem spawnAll_run (N : Nat) (c : Bool) :
    ∃ s', run N { init with cancelled := c } (spawnAll N) = some s' ∧ AtHead N 0 s' ∧
      s'.cancelled = c := by
  obtain ⟨s1, a1, a2, a3, a4⟩ := goGen_run N c
  obtain ⟨s2, b1, b2, b3, b4⟩ := goWorkers_run N N 0 s1 (by omega) a2 a3
  rw [Nat.zero_add] at b2 b3
  have b3' : s2.main = nextDrain N 0 := by rw [b3, nextWorker, if_neg (Nat.lt_irrefl N)]
  obtain ⟨s3, c1, c2, c3, c4⟩ := goDrains_run N N 0 s2 (by omega) b2 b3'
  rw [Nat.zero_add] at c2 c3
  obtain ⟨s4, d1, d2, d3⟩ := goCloser_run N s3 c2 c3
  refine ⟨s4, ?_, d2, by rw [d3, c4, b4, a4]⟩
  have hrun := run_append_of a1 (run_append_of b1 (run_append_of c1 d1))
  exact hrun

theorem roundTrip_run (N k : Nat) (hN : 0 < N) (s : State) (h : AtHead N k s) :
    ∃ s', run N s (relay 0 (genValue k)) = some s' ∧ AtHead N (k + 1) s' ∧
      s'.cancelled = s.cancelled := by
  obtain ⟨h1, h3, h4, h5, h6, h7, h8, h9, h10, h11, h12, h13, h14, h15⟩ := h
  have hpc : s.gen.pc = .select := by rw [h4]
  have hn : s.gen.n = genValue k := by rw [h4]
  have hw0 := h7 0 hN
  have ho0 := h8 0 hN
  have hd0 := h9 0 hN
  simp [relay, run, step, Generator.step, Worker.step, State.crash, h1, h3, h5, h6, hw0, ho0,
    hd0, h10, h11, h12, h13, hpc, hn, hN]
  constructor <;> simp [h1, h3, h5, h6, h8, h10, h11, h12, h13, h14, h15, hpc, hn,
    genSeq_succ, genValue_succ]
  · intro i hi
    simp only [Function.update_apply]
    split_ifs with hij
    · rfl
    · exact h7 i hi
  · exact h8
  · intro i hi
    simp only [Function.update_apply]
    split_ifs with hij
    · rfl
    · exact h9 i hi

theorem roundTrips_run (N : Nat) (hN : 0 < N) (k : Nat) : ∀ (j : Nat) (s : State),
    AtHead N j s →
    ∃ s', run N s (roundTrips j k) = some s' ∧ AtHead N (j + k) s' ∧
      s'.cancelled = s.cancelled := by
  induction k with
  | zero => intro j s h; exact ⟨s, rfl, h, rfl⟩
  | succ k ih =>
    intro j s h
    obtain ⟨t, h1, h2, h3⟩ := roundTrip_run N j hN s h
    obtain ⟨u, h4, h5, h6⟩ := ih (j + 1) t h2
    have e : j + (k + 1) = j + 1 + k := by omega
    refine ⟨u, run_append_of h1 h4, ?_, by rw [h6, h3]⟩
    rw [e]
    exact h5

theorem cancel_close_run (N k : Nat) (s : State) (h : AtHead N k s)
    (hc : s.cancelled = false) :
    ∃ s', run N s [.cancel, .genCtxDone, .genClose] = some s' ∧ Retiring N 0 k s' := by
  obtain ⟨h1, h3, h4, h5, h6, h7, h8, h9, h10, h11, h12, h13, h14, h15⟩ := h
  have hpc : s.gen.pc = .select := by rw [h4]
  simp [run, step, Generator.step, State.crash, h1, h3, h5, h6, h10, h11, h12, h13, hpc, hc]
  constructor <;> simp [h1, h3, h5, h6, h10, h11, h12, h13, h14, h15]
  · exact h7
  · exact h8
  · exact h9

theorem close_run (N k : Nat) (s : State) (h : AtHead N k s) (hc : s.cancelled = true) :
    ∃ s', run N s [.genCtxDone, .genClose] = some s' ∧ s'.cancelled = true ∧
      s'.chInClosed = true ∧ s'.sentIn = genSeq k := by
  obtain ⟨h1, h3, h4, h5, h6, h7, h8, h9, h10, h11, h12, h13, h14, h15⟩ := h
  have hpc : s.gen.pc = .select := by rw [h4]
  simp [run, step, Generator.step, State.crash, h1, h3, h5, h6, h10, h11, h12, h13, hpc, hc,
    h15]

theorem retire_run (N j k : Nat) (s : State) (h : Retiring N j k s) (hj : j < N) :
    ∃ s', run N s (retire j) = some s' ∧ Retiring N (j + 1) k s' := by
  obtain ⟨h1, h3, h6, h7, h8, h9, h10, h11, h12, h13, h14, h15⟩ := h
  have hw := h7 j (Nat.le_refl j) hj
  have ho := h8 j (Nat.le_refl j) hj
  have hd := h9 j (Nat.le_refl j) hj
  have hwg : s.wg ≠ 0 := by omega
  simp [retire, run, step, Worker.step, State.crash, h1, h3, h6, hw, ho, hd, hwg]
  constructor <;> simp [h1, h3, h6, h11, h12, h13, h14, h15]
  · intro i hi hiN
    have hij : i ≠ j := by omega
    simp only [Function.update_apply, if_neg hij]
    exact h7 i (by omega) hiN
  · intro i hi hiN
    have hij : i ≠ j := by omega
    simp only [Function.update_apply, if_neg hij]
    exact h8 i (by omega) hiN
  · intro i hi hiN
    have hij : i ≠ j := by omega
    simp only [Function.update_apply, if_neg hij]
    exact h9 i (by omega) hiN
  · omega

theorem retireAll_run (N k : Nat) (m : Nat) : ∀ (j : Nat) (s : State), j + m ≤ N →
    Retiring N j k s → ∃ s', run N s (retireAll j m) = some s' ∧ Retiring N (j + m) k s' := by
  induction m with
  | zero => intro j s _ h; exact ⟨s, rfl, h⟩
  | succ m ih =>
    intro j s hle h
    obtain ⟨t, h1, h2⟩ := retire_run N j k s h (by omega)
    obtain ⟨u, h3, h4⟩ := ih (j + 1) t (by omega) h2
    have e : j + (m + 1) = j + 1 + m := by omega
    refine ⟨u, run_append_of h1 h3, ?_⟩
    rw [e]
    exact h4

theorem finish_run (N k : Nat) (s : State) (h : Retiring N N k s) :
    ∃ s', run N s [.closerWait, .closerClose, .mainEnd] = some s' ∧ s'.main = .ended ∧
      s'.fwd 0 = genSeq k ∧ s'.sentIn = genSeq k := by
  obtain ⟨h1, h3, h6, h7, h8, h9, h10, h11, h12, h13, h14, h15⟩ := h
  have hwg : s.wg = 0 := by omega
  simp [run, step, State.crash, h1, h3, h11, h12, h13, h14, h15, hwg]

theorem longRun_run (N k : Nat) (hN : 0 < N) :
    ∃ s', run N init (longRun N k) = some s' ∧ s'.main = .ended ∧ s'.fwd 0 = genSeq k ∧
      s'.sentIn = genSeq k := by
  obtain ⟨s1, a1, a2, a3⟩ := spawnAll_run N false
  obtain ⟨s2, b1, b2, b3⟩ := roundTrips_run N hN k 0 s1 a2
  rw [Nat.zero_add] at b2
  obtain ⟨s3, c1, c2⟩ := cancel_close_run N k s2 b2 (by rw [b3, a3])
  obtain ⟨s4, d1, d2⟩ := retireAll_run N k N 0 s3 (by omega) c2
  rw [Nat.zero_add] at d2
  obtain ⟨s5, e1, e2⟩ := finish_run N k s4 d2
  refine ⟨s5, ?_, e2⟩
  have a1' : run N init (spawnAll N) = some s1 := a1
  exact run_append_of a1' (run_append_of b1 (run_append_of c1 (run_append_of d1 e1)))

theorem longRun_exec (N k : Nat) (hN : 0 < N) :
    (exec N (longRun N k)).main = .ended ∧ (exec N (longRun N k)).fwd 0 = genSeq k ∧
      (exec N (longRun N k)).sentIn = genSeq k := by
  obtain ⟨s', h1, h2⟩ := longRun_run N k hN
  unfold exec
  rw [h1]
  exact h2

theorem cancelledLong_exec (N k : Nat) (hN : 0 < N) :
    (exec N (cancelledLong N k)).cancelled = true ∧
      (exec N (cancelledLong N k)).chInClosed = true ∧
      (exec N (cancelledLong N k)).sentIn = genSeq k := by
  have h0 : run N init [.cancel] = some { init with cancelled := true } := by
    simp [run, step, init]
  obtain ⟨s1, a1, a2, a3⟩ := spawnAll_run N true
  obtain ⟨s2, b1, b2, b3⟩ := roundTrips_run N hN k 0 s1 a2
  rw [Nat.zero_add] at b2
  obtain ⟨s3, c1, c2⟩ := close_run N k s2 b2 (by rw [b3, a3])
  have h := run_append_of h0 (run_append_of a1 (run_append_of b1 c1))
  have h : run N init (cancelledLong N k) = some s3 := h
  unfold exec
  rw [h]
  exact c2

/-! ## Cancellation before the first select; runs past the `int64` range -/

theorem run_exec_split (N : Nat) (as bs : List Action)
    (h : (run N init (as ++ bs)).isSome = true) :
    run N (exec N as) bs = some (exec N (as ++ bs)) := by
  rw [run_append] at h
  unfold exec
  rw [run_append]
  cases h1 : run N init as with
  | none => rw [h1] at h; simp at h
  | some t =>
    rw [h1] at h
    simp only [Option.some_bind] at h ⊢
    cases h2 : run N t bs with
    | none => rw [h2] at h; simp at h
    | some u => simp [h2]

/-- C8 (amended): once the context is cancelled, in every state reached later
it stays cancelled and, whenever `Generator` is at its select, the
`ctx.Done()` branch is enabled and leads to the deferred close without a
further send; when `chIn` is closed, every value sent has been passed to the
callback and `inputCount` is the number of values sent, reduced to `int64`;
and the number of values sent is not bounded: for every `k` the run
`cancelledLong N k`, which starts with the cancellation, closes `chIn` after
`k` values have been sent. -/
theorem C8_cancelled_generator (N : Nat) (s0 s : State) (as : List Action)
    (hr : Reachable N s0) (hc : s0.cancelled = true) (hrun : run N s0 as = some s) :
    s.cancelled = true ∧
      (s.gen.pc = .select →
        ∃ s', step N s .genCtxDone = some s' ∧ s'.gen.pc = .closing ∧ s'.sentIn = s.sentIn) ∧
      (s.chInClosed = true →
        s.fnArgs = s.sentIn ∧ s.inputCount = wrap64 (s.sentIn.length : Int)) ∧
      (0 < N → ∀ k, (cancelledLong N k).head? = some Action.cancel ∧
        (exec N (cancelledLong N k)).chInClosed = true ∧
        (exec N (cancelledLong N k)).sentIn.length = k) := by
  obtain ⟨hi, hc'⟩ := run_cancelled as s0 s (inv_reachable hr) hc hrun
  refine ⟨hc', ?_, ?_, ?_⟩
  · intro hpc
    exact ⟨_, next_step hi.noPanic (Next.genCtxDone hc' hpc), rfl, rfl⟩
  · intro hcl
    have hd := hi.inClosed.1 hcl
    have hf : s.fnMid = false := by
      cases h : s.fnMid
      · rfl
      · have := hi.fnMidPc h
        rw [hd] at this
        cases this
    have ha := hi.fnSettled (Or.inl (by rw [hd]; simp))
    refine ⟨ha, ?_⟩
    rw [hi.inCount, hf, ha]
    simp
  · intro hN k
    obtain ⟨_, h2, h3⟩ := cancelledLong_exec N k hN
    exact ⟨rfl, h2, by rw [h3, genSeq_length]⟩

theorem C8_cancelled_generator_witness :
    (exec NumOut [.cancel]).cancelled = true ∧ (exec NumOut cancelledRun).chInClosed = true ∧
      (exec NumOut cancelledRun).cancelled = true ∧
      (exec NumOut cancelledRun).fnArgs = (exec NumOut cancelledRun).sentIn :=
  have h := C8_cancelled_generator NumOut (exec NumOut [.cancel]) (exec NumOut cancelledRun)
    cancelledRun.tail (reachable_exec NumOut [.cancel]) (by decide)
    (run_exec_split NumOut [.cancel] cancelledRun.tail (by decide))
  ⟨by decide, by decide, h.1, (h.2.2.1 (by decide)).1⟩

/-- C8 fails as stated: with `NumOut` workers the context is cancelled first,
and `Generator` still sends two values before closing `chIn`; `inputCount`
ends as 2. -/
theorem C8_counterexample :
    cancelledRun.head? = some Action.cancel ∧ (exec NumOut cancelledRun).cancelled = true ∧
      (exec NumOut cancelledRun).chInClosed = true ∧
      (exec NumOut cancelledRun).sentIn = [1, 2] ∧ (exec NumOut cancelledRun).inputCount = 2 := by
  decide

theorem wrap64_big : wrap64 9223372036854775808 = -9223372036854775808 := by
  unfold wrap64
  norm_num

/-- Past the `int64` range: in the run `longRun NumOut (2^63)`, in which
`2^63` values travel through worker 0 and which is taken without regard to
the time it needs, the receive loop of `main` ends with `amounts[0] = -2^63`
although worker 0 forwarded `2^63` values. -/
theorem longRun_amounts_past_int64 :
    (exec NumOut (longRun NumOut 9223372036854775808)).main = .ended ∧
      ((exec NumOut (longRun NumOut 9223372036854775808)).fwd 0).length
        = 9223372036854775808 ∧
      (exec NumOut (longRun NumOut 9223372036854775808)).amounts 0
        = -9223372036854775808 := by
  obtain ⟨h1, h2, _⟩ := longRun_exec NumOut 9223372036854775808 (by decide)
  have hi := inv_reachable (reachable_exec NumOut (longRun NumOut 9223372036854775808))
  have st := settled_of_ended hi h1
  have hl : ((exec NumOut (longRun NumOut 9223372036854775808)).fwd 0).length
      = 9223372036854775808 := by
    rw [h2, genSeq_length]
  refine ⟨h1, hl, ?_⟩
  rw [settled_amounts hi st 0 (by decide), hl]
  exact wrap64_big

theorem genSeq_sorted_last (k : Nat) (h : List.Sorted (· < ·) (genSeq (k + 2))) :
    genValue k < genValue (k + 1) := by
  rw [genSeq_succ, genSeq_succ, List.append_assoc] at h
  have := (List.pairwise_append.1 h).2.1
  simpa using this

theorem genValue_last : genValue 9223372036854775806 = 9223372036854775807 := by
  rw [genValue_eq]
  unfold wrap64
  norm_num

/-- Past the `int64` range: in the run `longRun NumOut (2^63)` the values sent
on `outs[0]` are the first `2^63` values of the generator and are not
strictly increasing (`2^63 - 1` is followed by `-2^63`). -/
theorem longRun_order_past_int64 :
    (exec NumOut (longRun NumOut 9223372036854775808)).fwd 0 = genSeq 9223372036854775808 ∧
      ¬ List.Sorted (· < ·) ((exec NumOut (longRun NumOut 9223372036854775808)).fwd 0) := by
  obtain ⟨_, h2, _⟩ := longRun_exec NumOut 9223372036854775808 (by decide)
  refine ⟨h2, ?_⟩
  rw [h2]
  intro h
  have h3 := genSeq_sorted_last 9223372036854775806 h
  rw [genValue_last] at h3
  have h4 : genValue (9223372036854775806 + 1) = -9223372036854775808 := genValue_wrapped
  rw [h4] at h3
  norm_num at h3

end Pipeline
